import Mathlib

/-!
Shallow embedding of the hangman solver (`hangman.py`) and the prefix trie
(`trie.py`), with theorems checking the natural-language specification
against the code.

Modelling conventions:
* Python strings are `List Char`.  Python sets (`self.words`,
  `self.guessed_letters`, letter sets) are lists read up to membership:
  `set.add` is `List.insert` (inserts only when absent), set difference and
  comprehension are `List.filter`, `set(...)` of a string is `List.dedup`.
  The listing order of a Python set is arbitrary; every place the code
  iterates a set, either the result is order-independent (the minimum under
  an injective key; emptiness tests) or the claims quantify over the order
  (`random.choice`), so fixing a canonical order is faithful.
* The class attribute `letters_by_frequency = deque('ETAOINSRHDLUCMFYWGPBVKXQJZ')`
  is shared, mutable, class-level state in the source.  It is therefore NOT a
  field of the solver state: every operation that reads or mutates it takes the
  current deque as an extra argument and returns the possibly-updated deque, so
  that several solver instances sharing one deque can be expressed.
* `random.choice` draws from the process-wide random generator; we model the
  generator as an oracle stream of naturals carried by the solver, and the
  choice as indexing the choice list by the next oracle value modulo the list
  length.  Every theorem below holds for every oracle.
* Python `RuntimeError`/`re.error`/`ValueError` raises become an `Except Err`
  result.  The spec's error taxonomy maps onto the raise sites as follows:
  `protocolViolation` = the two protocol `RuntimeError`s in
  `HangmanSolver.guess_letter` / `receive_feedback`; `noCandidates` =
  `RuntimeError('no words match!')`; `exhausted` =
  `RuntimeError('no letters left to guess!')`; `regexError` = the `re.error`
  raised by `re.compile` when the pattern `_get_regex` builds fails to parse
  (which happens exactly when all letters are guessed while an odd number of
  cells are unknown, see `rePattern`); `valueError` = the `ValueError` raised
  by `deque.index` when a candidate letter does not occur in the frequency
  deque; `indexError` = the `IndexError` raised by the multi-word
  `receive_feedback` when a nonempty position-set is left over beyond the
  slots (an empty leftover set drives no inner iteration and never indexes).
* The compiled pattern is modelled at two levels.  `rePattern`/`reMatch` are
  the real `re.compile`/`re.match` semantics of the built string, including
  the corner where `possible_letters` is empty: the wildcard `[]` is then an
  empty bracket pair, and in Python a `]` that is the first character of a
  character class is a literal, so consecutive `[]` wildcards pair up into
  one class spanning the cells between them, and an odd number of them leaves
  the last class unterminated (`re.error`).  `cellMatch`/`patMatch` are the
  spec's per-cell matcher (a revealed cell matches only its letter, an
  unknown cell any letter not yet guessed); `reMatch_eq_patMatch` proves the
  two agree whenever the pattern has no empty class, i.e. whenever some
  letter is unguessed or no cell is unknown.
-/

/-- Failure outcomes of the solver operations (the spec's error taxonomy,
mapped from the concrete `raise` sites of `hangman.py` as described above). -/
inductive Err where
  | protocolViolation
  | noCandidates
  | exhausted
  | regexError
  | valueError
  | indexError
  deriving DecidableEq, Repr

deriving instance DecidableEq for Except

/-- `GuessingStrategy` enum of `hangman.py` (line 13). -/
inductive GuessingStrategy where
  | frequency
  | random
  | regex
  deriving DecidableEq, Repr

/-- `HangmanSolver.ALL_LETTERS = set('ABCDEFGHIJKLMNOPQRSTUVWXYZ')` (line 24). -/
def ALL_LETTERS : List Char := "ABCDEFGHIJKLMNOPQRSTUVWXYZ".toList

/-- Initial contents of the class-level deque
`letters_by_frequency = deque('ETAOINSRHDLUCMFYWGPBVKXQJZ')` (line 25). -/
def letters_by_frequency : List Char := "ETAOINSRHDLUCMFYWGPBVKXQJZ".toList

/-- State of a single-slot solver.  Fields `solution`, `guessed_letters`,
`last_guess`, `solved` are the instance attributes set in
`HangmanSolver.__init__` (lines 27-31); `words` is the dictionary attribute of
`DictionaryHangmanSolver` (line 77, the externally supplied word set); `oracle`
models the random generator consumed by `RandomHangmanSolver`; `strategy`
records which `_guess` override the instance carries. -/
structure HangmanSolver where
  solution : List Char
  guessed_letters : List Char
  last_guess : Option Char
  solved : Bool
  strategy : GuessingStrategy
  oracle : List Nat
  words : List (List Char)
  deriving DecidableEq, Repr

/-- `HangmanSolver.__init__(answer_length)` (lines 27-31), together with the
dictionary loading of `DictionaryHangmanSolver.__init__` (lines 74-77): the
word list is supplied externally as an already uppercased, stripped word set
(per the spec's external-interface contract), so the constructor stores it
unchanged — note that it is NOT restricted by `answer_length`. -/
def HangmanSolver.init (strategy : GuessingStrategy) (answer_length : Nat)
    (oracle : List Nat) (dictionary : List (List Char)) : HangmanSolver :=
  { solution := List.replicate answer_length '_'
    guessed_letters := []
    last_guess := none
    solved := false
    strategy := strategy
    oracle := oracle
    words := dictionary }

/-- `possible_letters = self.ALL_LETTERS - self.guessed_letters`
(`_get_regex`, line 86). -/
def possible_letters (guessed_letters : List Char) : List Char :=
  ALL_LETTERS.filter (fun c => decide (c ∉ guessed_letters))

/-- The spec's semantics of one cell of the pattern built by `_get_regex`
(line 90): a revealed cell (`p ≠ '_'`) is the literal letter `p`; an unknown
cell is the character class `[{possible_letters}]`.  (Solution cells are
always `'_'` or a previously guessed uppercase letter, so the literal-cell
case never involves a regex metacharacter.)  This is the intended per-cell
reading; `reMatch_eq_patMatch` below proves it equal to the real compiled
semantics whenever the class is nonempty or no cell is unknown. -/
def cellMatch (guessed_letters : List Char) (p c : Char) : Bool :=
  if p = '_' then decide (c ∈ possible_letters guessed_letters) else decide (c = p)

/-- The spec's whole-string per-cell match of a word against the anchored
pattern `'^' + cells + '$'` (lines 90-91): same length and every cell
matches.  (Dictionary words are `strip()`ped lines, hence free of the
trailing newline that `'$'` would additionally tolerate.) -/
def patMatch (guessed_letters : List Char) : List Char → List Char → Bool
  | [], [] => true
  | p :: ps, c :: cs => cellMatch guessed_letters p c && patMatch guessed_letters ps cs
  | _, _ => false

/-- One token of the compiled regex: a literal character, or a character
class matching exactly one character out of a set. -/
inductive RTok where
  | lit (c : Char)
  | cls (cs : List Char)
  deriving DecidableEq, Repr

/-- Whether one character matches one token. -/
def RTok.matchTok : RTok → Char → Bool
  | .lit p, c => decide (c = p)
  | .cls cs, c => decide (c ∈ cs)

/-- Parse of the pattern string built by `_get_regex` when `possible_letters`
is EMPTY, i.e. every unknown cell contributes the bracket pair `[]`.  Python
treats a `]` that is the first character of a character class as a literal,
so the `[` of one wildcard opens a class whose first member is its own `]`,
swallows the literal letters up to the next wildcard and that wildcard's `[`,
and is closed by that wildcard's `]`: wildcards pair up into one class
`{']', letters between them, '['}` spanning the cells between them, and an
unpaired final wildcard leaves the class unterminated — `re.error`, `none`
here.  The second argument is `none` outside a class and `some acc` inside
one with the members read so far. -/
def emptyToksGo : List Char → Option (List Char) → Option (List RTok)
  | [], none => some []
  | [], some _ => none
  | c :: rest, none =>
    if c = '_' then emptyToksGo rest (some [']'])
    else Option.map (fun ts => RTok.lit c :: ts) (emptyToksGo rest none)
  | c :: rest, some acc =>
    if c = '_' then Option.map (fun ts => RTok.cls (acc ++ ['[']) :: ts) (emptyToksGo rest none)
    else emptyToksGo rest (some (acc ++ [c]))

/-- The token list of the compiled pattern of `_get_regex` (lines 85-91):
with a nonempty `possible_letters` every cell is its own token (a literal or
the class `[{possible_letters}]`); with `possible_letters` empty the bracket
pairs degenerate as parsed by `emptyToksGo`; `none` when `re.compile`
raises. -/
def rePattern (guessed_letters : List Char) (word : List Char) : Option (List RTok) :=
  if possible_letters guessed_letters = [] then emptyToksGo word none
  else
    some (word.map (fun c =>
      if c = '_' then RTok.cls (possible_letters guessed_letters) else RTok.lit c))

/-- Whether `re.compile` succeeds on the pattern `_get_regex` builds: it
fails exactly when the parse of `rePattern` does, i.e. (see
`regexCompiles_false_iff`) when `possible_letters` is empty while an odd
number of cells are unknown (`'^[]$'` is an unterminated character set, while
`'^[][]$'` parses: its first `]` is a literal). -/
def regexCompiles (guessed_letters : List Char) (word : List Char) : Bool :=
  (rePattern guessed_letters word).isSome

/-- The pattern `_get_regex` builds contains no empty character class: no
cell is unknown, or some letter is still unguessed.  In this region the
compiled pattern has the per-cell semantics (`reMatch_eq_patMatch`); outside
it, it either fails to compile or its classes span cell boundaries. -/
def noEmptyClass (guessed_letters : List Char) (word : List Char) : Bool :=
  decide ('_' ∉ word) || decide (possible_letters guessed_letters ≠ [])

/-- Anchored whole-string match of a word against a compiled token list:
same number of characters as tokens, each matching its token. -/
def rtokMatch : List RTok → List Char → Bool
  | [], [] => true
  | t :: ts, c :: cs => t.matchTok c && rtokMatch ts cs
  | _, _ => false

/-- `regex.match(word) is not None` for the compiled pattern of `_get_regex`:
the real matcher of the code, `false` when the pattern does not compile. -/
def reMatch (guessed_letters : List Char) (pattern word : List Char) : Bool :=
  match rePattern guessed_letters pattern with
  | none => false
  | some ts => rtokMatch ts word

/-- The spec's per-cell pruning: the words surviving the per-cell matcher.
Equal to the code's pruning `pruneRe` whenever the pattern has no empty
character class (`pruneRe_eq_prune`). -/
def prune (guessed_letters : List Char) (pattern : List Char)
    (words : List (List Char)) : List (List Char) :=
  words.filter (fun w => patMatch guessed_letters pattern w)

/-- The pruning step of `RegexHangmanSolver._guess` (line 95):
`set(word for word in self.words if regex.match(word) is not None)`, under
the real compiled-pattern semantics. -/
def pruneRe (guessed_letters : List Char) (pattern : List Char)
    (words : List (List Char)) : List (List Char) :=
  words.filter (fun w => reMatch guessed_letters pattern w)

/-- `letters_in_candidates = set(''.join(self.words))` (line 103): the set of
all characters occurring anywhere in the given word set. -/
def lettersIn (words : List (List Char)) : List Char :=
  words.flatten.dedup

/-- One comparison step of `sorted(letters_to_guess, key=deque.index)[0]`:
keep whichever of the two letters has the smaller index in `freq`. -/
def betterOf (freq : List Char) (a b : Char) : Char :=
  if freq.indexOf b < freq.indexOf a then b else a

/-- `RandomHangmanSolver._guess` (lines 57-61).  `choices` is the set
difference listed in canonical order and `random.choice` is modelled by
indexing with the next oracle value modulo the length; the theorems hold for
every oracle. -/
def RandomHangmanSolver.guessFn (sv : HangmanSolver) : Except Err (Char × List Nat) :=
  match possible_letters sv.guessed_letters with
  | [] => .error .exhausted
  | c :: cs =>
    .ok ((c :: cs).getD (sv.oracle.headD 0 % (c :: cs).length) c, sv.oracle.tail)

/-- `FrequencyHangmanSolver._guess` (lines 66-69): raise if the shared deque is
empty, else `popleft()` its head. -/
def FrequencyHangmanSolver.guessFn (freq : List Char) : Except Err (Char × List Char) :=
  match freq with
  | [] => .error .exhausted
  | c :: rest => .ok (c, rest)

/-- The letter-ranking step shared by both regex strategies
(lines 104-107 and 141-144): list the candidate letters not yet guessed,
raise `exhausted` if there are none, and otherwise return
`sorted(letters_to_guess, key=self.letters_by_frequency.index)[0]` — the
letter with the smallest index in the frequency deque (`valueError`, as
`deque.index` raises, if some candidate letter is absent from the deque). -/
def selectLetter (freq guessed_letters candidate_letters : List Char) : Except Err Char :=
  match candidate_letters.filter (fun c => decide (c ∉ guessed_letters)) with
  | [] => .error .exhausted
  | c :: cs =>
    if (c :: cs).all (fun x => decide (x ∈ freq)) then
      .ok (cs.foldl (betterOf freq) c)
    else .error .valueError

/-- `RegexHangmanSolver._guess` (lines 93-107): compile the pattern
(`regexError` when impossible), prune `self.words` and store the pruned set,
raise `noCandidates` if it is empty, then rank the remaining letters.
Returns the chosen letter together with the pruned word set. -/
def RegexHangmanSolver.guessFn (freq : List Char) (sv : HangmanSolver) :
    Except Err (Char × List (List Char)) :=
  if regexCompiles sv.guessed_letters sv.solution = false then .error .regexError
  else if pruneRe sv.guessed_letters sv.solution sv.words = [] then .error .noCandidates
  else
    match selectLetter freq sv.guessed_letters
        (lettersIn (pruneRe sv.guessed_letters sv.solution sv.words)) with
    | .error e => .error e
    | .ok c => .ok (c, pruneRe sv.guessed_letters sv.solution sv.words)

/-- Dispatch of the abstract method `_guess` to the strategy override carried
by the instance; returns the chosen letter, the updated instance and the
updated shared frequency deque. -/
def HangmanSolver.guessImpl (sv : HangmanSolver) (freq : List Char) :
    Except Err (Char × HangmanSolver × List Char) :=
  match sv.strategy with
  | .random =>
    match RandomHangmanSolver.guessFn sv with
    | .error e => .error e
    | .ok (c, oracle') => .ok (c, { sv with oracle := oracle' }, freq)
  | .frequency =>
    match FrequencyHangmanSolver.guessFn freq with
    | .error e => .error e
    | .ok (c, freq') => .ok (c, sv, freq')
  | .regex =>
    match RegexHangmanSolver.guessFn freq sv with
    | .error e => .error e
    | .ok (c, words') => .ok (c, { sv with words := words' }, freq)

/-- `HangmanSolver.guess_letter` (lines 37-43): protocol check, delegate to
`_guess`, record the choice as pending and as guessed, return it. -/
def HangmanSolver.guess_letter (sv : HangmanSolver) (freq : List Char) :
    Except Err (Char × HangmanSolver × List Char) :=
  match sv.last_guess with
  | some _ => .error .protocolViolation
  | none =>
    match sv.guessImpl freq with
    | .error e => .error e
    | .ok (choice, sv', freq') =>
      .ok (choice, { sv' with last_guess := some choice
                              guessed_letters := sv'.guessed_letters.insert choice }, freq')

/-- `self.solution[:index] + self.last_guess + self.solution[index+1:]`
(line 49), with Python slice semantics (an out-of-range index appends). -/
def setIndex (s : List Char) (c : Char) (index : Nat) : List Char :=
  s.take index ++ c :: s.drop (index + 1)

/-- `HangmanSolver.receive_feedback(matching_indices)` (lines 45-52). -/
def HangmanSolver.receive_feedback (sv : HangmanSolver) (matching_indices : List Nat) :
    Except Err HangmanSolver :=
  match sv.last_guess with
  | none => .error .protocolViolation
  | some g =>
    .ok { sv with
          solution := matching_indices.foldl (fun s index => setIndex s g index) sv.solution
          last_guess := none
          solved :=
            if '_' ∈ matching_indices.foldl (fun s index => setIndex s g index) sv.solution
            then sv.solved else true }

/-- State of `MultiWordRegexHangmanSolver` (lines 110-115): the solution is a
list of per-slot strings, `words` the full dictionary (which, unlike the
single-slot solver, this subclass never overwrites), and `word_candidates` one
candidate set per slot, each seeded with a copy of the full dictionary. -/
structure MultiWordRegexHangmanSolver where
  solution : List (List Char)
  guessed_letters : List Char
  last_guess : Option Char
  solved : Bool
  words : List (List Char)
  word_candidates : List (List (List Char))
  deriving DecidableEq, Repr

/-- `MultiWordRegexHangmanSolver.__init__(answer_word_lengths)` (lines
112-115): base init with the externally supplied dictionary, then one
all-underscore string per slot and one full-dictionary candidate copy per
slot — again with no length restriction at construction. -/
def MultiWordRegexHangmanSolver.init (answer_word_lengths : List Nat)
    (dictionary : List (List Char)) : MultiWordRegexHangmanSolver :=
  { solution := answer_word_lengths.map (fun n => List.replicate n '_')
    guessed_letters := []
    last_guess := none
    solved := false
    words := dictionary
    word_candidates := answer_word_lengths.map (fun _ => dictionary) }

/-- The per-slot loop of `MultiWordRegexHangmanSolver._guess` (lines 133-137):
for each slot, compile that slot's pattern and filter the FULL dictionary
`self.words` by it, failing with `noCandidates` at the first slot whose
filtered set is empty.  (The source mutates `self.word_candidates[i]` as it
goes, so on failure the earlier slots were already updated; the claims only
concern the computed sets, which this function returns.) -/
def computeCandidates (guessed_letters : List Char) (words : List (List Char)) :
    List (List Char) → Except Err (List (List (List Char)))
  | [] => .ok []
  | w :: ws =>
    if regexCompiles guessed_letters w = false then .error .regexError
    else if pruneRe guessed_letters w words = [] then .error .noCandidates
    else
      match computeCandidates guessed_letters words ws with
      | .error e => .error e
      | .ok rest => .ok (pruneRe guessed_letters w words :: rest)

/-- `MultiWordRegexHangmanSolver._guess` (lines 132-144): per-slot pruning,
then the letters of all slots' surviving candidates
(`set(''.join([''.join(words) for words in self.word_candidates]))`) are
ranked exactly as in the single-slot solver. -/
def MultiWordRegexHangmanSolver.guessFn (freq : List Char)
    (sv : MultiWordRegexHangmanSolver) :
    Except Err (Char × MultiWordRegexHangmanSolver) :=
  match computeCandidates sv.guessed_letters sv.words sv.solution with
  | .error e => .error e
  | .ok cands =>
    match selectLetter freq sv.guessed_letters (lettersIn cands.flatten) with
    | .error e => .error e
    | .ok c => .ok (c, { sv with word_candidates := cands })

/-- `guess_letter` as inherited by `MultiWordRegexHangmanSolver` from
`HangmanSolver` (lines 37-43), dispatching `_guess` to the multi-word
override (which reads but never mutates the shared deque). -/
def MultiWordRegexHangmanSolver.guess_letter (sv : MultiWordRegexHangmanSolver)
    (freq : List Char) :
    Except Err (Char × MultiWordRegexHangmanSolver × List Char) :=
  match sv.last_guess with
  | some _ => .error .protocolViolation
  | none =>
    match MultiWordRegexHangmanSolver.guessFn freq sv with
    | .error e => .error e
    | .ok (choice, sv') =>
      .ok (choice, { sv' with last_guess := some choice
                              guessed_letters := sv'.guessed_letters.insert choice }, freq)

/-- The nested update loop of `MultiWordRegexHangmanSolver.receive_feedback`
(lines 124-127): pair the position-sets with the slots in order; a NONEMPTY
position-set left over after the slots run out hits
`self.solution[word_index]` out of range inside the inner loop (`IndexError`,
modelled as `none`), while an empty leftover set drives no inner iteration
and is skipped; position-sets may be fewer than the slots, leaving trailing
slots untouched. -/
def updateWords (g : Char) : List (List Char) → List (List Nat) → Option (List (List Char))
  | sol, [] => some sol
  | [], matching :: rest =>
    if matching = [] then updateWords g [] rest else none
  | w :: ws, matching :: rest =>
    match updateWords g ws rest with
    | none => none
    | some ws' => some ((matching.foldl (fun s index => setIndex s g index) w) :: ws')

/-- `MultiWordRegexHangmanSolver.receive_feedback(matching_word_indices)`
(lines 121-130).  The solved test `'_' not in self.solution_str` checks the
space-joined slots, i.e. whether any slot still contains an unknown cell. -/
def MultiWordRegexHangmanSolver.receive_feedback (sv : MultiWordRegexHangmanSolver)
    (matching_word_indices : List (List Nat)) : Except Err MultiWordRegexHangmanSolver :=
  match sv.last_guess with
  | none => .error .protocolViolation
  | some g =>
    match updateWords g sv.solution matching_word_indices with
    | none => .error .indexError
    | some sol =>
      .ok { sv with solution := sol
                    last_guess := none
                    solved := if sol.any (fun w => decide ('_' ∈ w)) then sv.solved else true }

/-- `Node` of `trie.py` (lines 5-21): a terminal flag and a dict from letters
to child nodes, modelled as an association list in insertion order.  The
source also stores `value`, the (uppercased) letter under which the node sits
in its parent's dict; it duplicates the key and is used only by the dataclass
equality in `Trie.add`'s `parent != self.root` test, which is modelled where
it occurs. -/
inductive Node where
  | mk (terminal : Bool) (children : List (Char × Node))

/-- Projection for the `terminal` attribute. -/
def Node.terminal : Node → Bool
  | .mk t _ => t

/-- Projection for the `children` dict. -/
def Node.children : Node → List (Char × Node)
  | .mk _ ch => ch

/-- `Node.get_child(value)` (lines 20-21): `self.children.get(value.upper())`. -/
def Node.get_child (n : Node) (value : Char) : Option Node :=
  n.children.lookup value.toUpper

/-- Store a node under a key in the children dict: replace an existing
binding in place, or append a new key in insertion order (Python dict
assignment, as performed by `Node.add_child`, lines 11-18). -/
def updateChild (children : List (Char × Node)) (key : Char) (node : Node) :
    List (Char × Node) :=
  match children with
  | [] => [(key, node)]
  | (k, n) :: rest =>
    if k = key then (key, node) :: rest else (k, n) :: updateChild rest key node

/-- The walk/create loop of `Trie.add` (lines 33-40) over the letters of
`item.upper()`: follow `get_child`, create `Node(letter, False)` via
`add_child` where missing (`add_child` stores under `letter.upper()`), and
mark the final node terminal. -/
def insertPath : Node → List Char → Node
  | n, [] => .mk true n.children
  | n, c :: cs =>
    let child := match n.get_child c with
      | some child => child
      | none => .mk false []
    .mk n.terminal (updateChild n.children c.toUpper (insertPath child cs))

/-- `Trie` (lines 24-30): just a root node, `Node('')`, never terminal. -/
structure Trie where
  root : Node

/-- `Trie.add(item)` (lines 32-40).  The final `if parent != self.root:
parent.terminal = True` compares dataclass values; the walked-to `parent`
equals the root exactly when `item` is empty (every non-root node's `value`
is a single uppercase letter, never the root's `''`), so an empty item leaves
the trie unchanged and a nonempty one marks the final node terminal. -/
def Trie.add (t : Trie) (item : List Char) : Trie :=
  if item = [] then t else ⟨insertPath t.root (item.map Char.toUpper)⟩

/-- `Trie.__init__(items)` (lines 26-30): start from the bare root and `add`
each item in order (`Trie()` with no items is `Trie.new []`). -/
def Trie.new (items : List (List Char)) : Trie :=
  items.foldl Trie.add ⟨.mk false []⟩

/-- The walk loop shared by `get_node` (lines 42-49): follow `get_child` for
each letter, `none` as soon as a letter is missing. -/
def Node.walk : Node → List Char → Option Node
  | n, [] => some n
  | n, c :: cs =>
    match n.get_child c with
    | none => none
    | some child => child.walk cs

/-- `Trie.get_node(prefix)` (lines 42-49): walk the letters of
`prefix.upper()` from the root. -/
def Trie.get_node (t : Trie) (pre : List Char) : Option Node :=
  t.root.walk (pre.map Char.toUpper)

/-- `Trie.__contains__(item)` (lines 67-69): the node reached by `item`
exists and is terminal. -/
def Trie.containsB (t : Trie) (item : List Char) : Bool :=
  match t.get_node item with
  | none => false
  | some n => n.terminal

/-- Terminal-path semantics of a node: whether following `w` leads to a
terminal node.  (`containsB` is exactly `memWord` after uppercasing.) -/
def Node.memWord (n : Node) (w : List Char) : Bool :=
  match n.walk w with
  | none => false
  | some m => m.terminal

/-- Depth-first collection of all terminal words below a node, each prefixed
with the path taken so far — the words accumulated by `Trie.suggest`'s
explicit stack loop (lines 58-65).  The loop visits exactly the subtree nodes
and appends `word + letter` per dict entry; only the enumeration order
differs, and both the spec and the claims read the result as a set. -/
def Node.collect : Node → List Char → List (List Char)
  | .mk t ch, word => (if t then [word] else []) ++ collectChildren ch word
where
  /-- The children half of the traversal: visit each dict entry in order. -/
  collectChildren : List (Char × Node) → List Char → List (List Char)
    | [], _ => []
    | (c, n) :: rest, word => n.collect (word ++ [c]) ++ collectChildren rest word

/-- `Trie.suggest(prefix)` (lines 51-65): empty if `get_node` fails, else all
terminal words below that node, prefixed with `prefix.upper()`. -/
def Trie.suggest (t : Trie) (pre : List Char) : List (List Char) :=
  match t.get_node pre with
  | none => []
  | some n => n.collect (pre.map Char.toUpper)

/-- One driver operation against a single-slot solver (the only two calls a
game loop makes, per the spec's external interface). -/
inductive Op where
  | guess
  | feedback (matching_indices : List Nat)

/-- Run a list of operations against one single-slot solver instance that owns
the frequency deque for the duration of the run; `none` as soon as an
operation raises, otherwise the final solver, final deque, and the letters
returned by the successful `guess_letter` calls in order. -/
def runOps : List Op → HangmanSolver → List Char →
    Option (HangmanSolver × List Char × List Char)
  | [], sv, freq => some (sv, freq, [])
  | .guess :: ops, sv, freq =>
    match sv.guess_letter freq with
    | .error _ => none
    | .ok (c, sv', freq') =>
      match runOps ops sv' freq' with
      | none => none
      | some (svf, freqf, ls) => some (svf, freqf, c :: ls)
  | .feedback matching_indices :: ops, sv, freq =>
    match sv.receive_feedback matching_indices with
    | .error _ => none
    | .ok sv' => runOps ops sv' freq

/-- One driver operation against the multi-word solver. -/
inductive MOp where
  | guess
  | feedback (matching_word_indices : List (List Nat))

/-- `runOps` for the multi-word solver. -/
def runMOps : List MOp → MultiWordRegexHangmanSolver → List Char →
    Option (MultiWordRegexHangmanSolver × List Char × List Char)
  | [], sv, freq => some (sv, freq, [])
  | .guess :: ops, sv, freq =>
    match sv.guess_letter freq with
    | .error _ => none
    | .ok (c, sv', freq') =>
      match runMOps ops sv' freq' with
      | none => none
      | some (svf, freqf, ls) => some (svf, freqf, c :: ls)
  | .feedback m :: ops, sv, freq =>
    match sv.receive_feedback m with
    | .error _ => none
    | .ok sv' => runMOps ops sv' freq

/-- `k` full protocol rounds, each a guess followed by all-miss feedback. -/
def roundOps : Nat → List Op
  | 0 => []
  | k + 1 => .guess :: .feedback [] :: roundOps k

/-- Honest feedback for the multi-word game, computed by the driver from the
fixed answer exactly as `MultiWordGame.play` does (line 247):
`[[i for i in range(len(word)) if word[i] == guess] for word in self.answer]`. -/
def honestIndices (answer : List (List Char)) (guess : Char) : List (List Nat) :=
  answer.map
    (fun word => (List.range word.length).filter (fun i => decide (word.getD i ' ' = guess)))

/-- The partial solution agrees with the answer: same slot structure, and
every revealed cell holds the answer's letter at that position.  This is the
state invariant of every honest execution. -/
def consistentWith (answer solution : List (List Char)) : Prop :=
  answer.length = solution.length ∧
  ∀ k, k < solution.length →
    (answer.getD k []).length = (solution.getD k []).length ∧
    ∀ j, j < (solution.getD k []).length →
      (solution.getD k []).getD j '_' ≠ '_' →
      (solution.getD k []).getD j '_' = (answer.getD k []).getD j '_'

/-- Invariant making the frequency strategy duplicate-free: the shared deque
holds no duplicates and no already-guessed letter.  It holds initially (the
26 distinct letters against an empty guessed set) and is maintained because
`popleft` removes exactly the letter being added to the guessed set.  For the
other strategies the invariant is vacuous. -/
def FreqInv (sv : HangmanSolver) (freq : List Char) : Prop :=
  sv.strategy = .frequency → (freq.Nodup ∧ ∀ l ∈ freq, l ∉ sv.guessed_letters)

/-- The set of words a sequence of `Trie.add` calls actually marks terminal:
every nonempty item, uppercased (empty items are skipped by the
`parent != self.root` guard). -/
def insertedWords (items : List (List Char)) : List (List Char) :=
  (items.filter (fun i => decide (i ≠ []))).map (fun i => i.map Char.toUpper)

/-- Well-formedness of trie nodes as built by `Trie.add`: children keys are
duplicate-free (Python dict keys) and uppercase-fixed (`add_child`
uppercases), hereditarily. -/
inductive Node.WF : Node → Prop where
  | mk {t : Bool} {ch : List (Char × Node)} :
      (ch.map Prod.fst).Nodup →
      (∀ k n, (k, n) ∈ ch → k.toUpper = k) →
      (∀ k n, (k, n) ∈ ch → Node.WF n) →
      Node.WF (.mk t ch)

lemma randomGuessFn_error {sv : HangmanSolver} {e : Err}
    (h : RandomHangmanSolver.guessFn sv = .error e) : e = .exhausted := by
  unfold RandomHangmanSolver.guessFn at h
  split at h <;> simp_all

lemma frequencyGuessFn_error {freq : List Char} {e : Err}
    (h : FrequencyHangmanSolver.guessFn freq = .error e) : e = .exhausted := by
  unfold FrequencyHangmanSolver.guessFn at h
  split at h <;> simp_all

lemma selectLetter_error {freq guessed cand : List Char} {e : Err}
    (h : selectLetter freq guessed cand = .error e) : e = .exhausted ∨ e = .valueError := by
  unfold selectLetter at h
  split at h
  · simp_all
  · split at h <;> simp_all

lemma regexGuessFn_error_kinds {freq : List Char} {sv : HangmanSolver} {e : Err}
    (h : RegexHangmanSolver.guessFn freq sv = .error e) :
    e = .regexError ∨ e = .noCandidates ∨ e = .exhausted ∨ e = .valueError := by
  unfold RegexHangmanSolver.guessFn at h
  split at h
  · simp_all
  · split at h
    · simp_all
    · cases hsel : selectLetter freq sv.guessed_letters
          (lettersIn (pruneRe sv.guessed_letters sv.solution sv.words)) <;> rw [hsel] at h
      · simp only [Except.error.injEq] at h
        subst h
        rcases selectLetter_error hsel with h1 | h1 <;> simp [h1]
      · simp at h

lemma HangmanSolver.guessImpl_error {sv : HangmanSolver} {freq : List Char} {e : Err}
    (h : sv.guessImpl freq = .error e) : e ≠ .protocolViolation := by
  unfold HangmanSolver.guessImpl at h
  split at h
  · cases hr : RandomHangmanSolver.guessFn sv <;> rw [hr] at h
    · simp only [Except.error.injEq] at h
      subst h
      simp [randomGuessFn_error hr]
    · obtain ⟨c, o⟩ := ‹Char × List Nat›
      simp at h
  · cases hr : FrequencyHangmanSolver.guessFn freq <;> rw [hr] at h
    · simp only [Except.error.injEq] at h
      subst h
      simp [frequencyGuessFn_error hr]
    · obtain ⟨c, o⟩ := ‹Char × List Char›
      simp at h
  · cases hr : RegexHangmanSolver.guessFn freq sv <;> rw [hr] at h
    · simp only [Except.error.injEq] at h
      subst h
      rcases regexGuessFn_error_kinds hr with h1 | h1 | h1 | h1 <;> simp [h1]
    · obtain ⟨c, o⟩ := ‹Char × List (List Char)›
      simp at h

lemma HangmanSolver.guessImpl_ok {sv : HangmanSolver} {freq : List Char} {c : Char}
    {sv' : HangmanSolver} {freq' : List Char} (h : sv.guessImpl freq = .ok (c, sv', freq')) :
    sv'.guessed_letters = sv.guessed_letters ∧ sv'.last_guess = sv.last_guess ∧
    sv'.solution = sv.solution ∧ sv'.solved = sv.solved ∧ sv'.strategy = sv.strategy := by
  unfold HangmanSolver.guessImpl at h
  split at h
  · cases hr : RandomHangmanSolver.guessFn sv <;> rw [hr] at h
    · simp at h
    · obtain ⟨cc, o⟩ := ‹Char × List Nat›
      simp only [Except.ok.injEq, Prod.mk.injEq] at h
      obtain ⟨rfl, rfl, rfl⟩ := h
      simp
  · cases hr : FrequencyHangmanSolver.guessFn freq <;> rw [hr] at h
    · simp at h
    · obtain ⟨cc, o⟩ := ‹Char × List Char›
      simp only [Except.ok.injEq, Prod.mk.injEq] at h
      obtain ⟨rfl, rfl, rfl⟩ := h
      simp
  · cases hr : RegexHangmanSolver.guessFn freq sv <;> rw [hr] at h
    · simp at h
    · obtain ⟨cc, o⟩ := ‹Char × List (List Char)›
      simp only [Except.ok.injEq, Prod.mk.injEq] at h
      obtain ⟨rfl, rfl, rfl⟩ := h
      simp

lemma computeCandidates_error {guessed : List Char} {words : List (List Char)}
    {sol : List (List Char)} {e : Err}
    (h : computeCandidates guessed words sol = .error e) :
    e = .regexError ∨ e = .noCandidates := by
  induction sol with
  | nil => simp [computeCandidates] at h
  | cons w ws ih =>
    unfold computeCandidates at h
    split at h
    · simp_all
    · split at h
      · simp_all
      · cases hc : computeCandidates guessed words ws <;> rw [hc] at h
        · simp only [Except.error.injEq] at h
          subst h
          exact ih hc
        · simp at h

lemma multiGuessFn_error_kinds {freq : List Char}
    {sv : MultiWordRegexHangmanSolver} {e : Err}
    (h : MultiWordRegexHangmanSolver.guessFn freq sv = .error e) :
    e ≠ .protocolViolation := by
  unfold MultiWordRegexHangmanSolver.guessFn at h
  cases hc : computeCandidates sv.guessed_letters sv.words sv.solution with
  | error e' =>
    simp only [hc, Except.error.injEq] at h
    subst h
    rcases computeCandidates_error hc with h1 | h1 <;> simp [h1]
  | ok cands =>
    simp only [hc] at h
    cases hsel : selectLetter freq sv.guessed_letters (lettersIn cands.flatten) with
    | error e' =>
      simp only [hsel, Except.error.injEq] at h
      subst h
      rcases selectLetter_error hsel with h1 | h1 <;> simp [h1]
    | ok c => simp [hsel] at h

lemma multiGuessFn_ok_frame {freq : List Char}
    {sv sv' : MultiWordRegexHangmanSolver} {c : Char}
    (h : MultiWordRegexHangmanSolver.guessFn freq sv = .ok (c, sv')) :
    sv'.guessed_letters = sv.guessed_letters ∧ sv'.last_guess = sv.last_guess ∧
    sv'.solution = sv.solution ∧ sv'.solved = sv.solved ∧ sv'.words = sv.words := by
  unfold MultiWordRegexHangmanSolver.guessFn at h
  cases hc : computeCandidates sv.guessed_letters sv.words sv.solution with
  | error e' => simp [hc] at h
  | ok cands =>
    simp only [hc] at h
    cases hsel : selectLetter freq sv.guessed_letters (lettersIn cands.flatten) with
    | error e' => simp [hsel] at h
    | ok c0 =>
      simp only [hsel, Except.ok.injEq, Prod.mk.injEq] at h
      obtain ⟨rfl, rfl⟩ := h
      simp

/-- Claim C2: for every solver and every state, `guess_letter` fails with
`protocolViolation` exactly when a guess is pending; a successful
`guess_letter` requires no pending guess, records the chosen letter as the
pending guess and adds it to the guessed-letter set; `receive_feedback` fails
with `protocolViolation` exactly when no guess is pending, and on success
clears the pending guess — so guesses and feedback strictly alternate.
(Stated for the single-slot solver under each of its three strategies and for
the multi-word solver with its overridden `receive_feedback`.) -/
theorem c2_protocol_alternation :
    (∀ (sv : HangmanSolver) (freq : List Char),
        sv.last_guess ≠ none → sv.guess_letter freq = .error .protocolViolation) ∧
    (∀ (sv : HangmanSolver) (freq : List Char),
        sv.last_guess = none → sv.guess_letter freq ≠ .error .protocolViolation) ∧
    (∀ (sv : HangmanSolver) (freq : List Char) (c : Char) (sv' : HangmanSolver)
        (freq' : List Char), sv.guess_letter freq = .ok (c, sv', freq') →
        sv.last_guess = none ∧ sv'.last_guess = some c ∧
        sv'.guessed_letters = sv.guessed_letters.insert c) ∧
    (∀ (sv : HangmanSolver) (matching_indices : List Nat),
        sv.receive_feedback matching_indices = .error .protocolViolation ↔
          sv.last_guess = none) ∧
    (∀ (sv sv' : HangmanSolver) (matching_indices : List Nat),
        sv.receive_feedback matching_indices = .ok sv' →
        sv.last_guess ≠ none ∧ sv'.last_guess = none) ∧
    (∀ (sv : MultiWordRegexHangmanSolver) (freq : List Char),
        sv.last_guess ≠ none → sv.guess_letter freq = .error .protocolViolation) ∧
    (∀ (sv : MultiWordRegexHangmanSolver) (freq : List Char),
        sv.last_guess = none → sv.guess_letter freq ≠ .error .protocolViolation) ∧
    (∀ (sv sv' : MultiWordRegexHangmanSolver) (freq freq' : List Char) (c : Char),
        sv.guess_letter freq = .ok (c, sv', freq') →
        sv.last_guess = none ∧ sv'.last_guess = some c ∧
        sv'.guessed_letters = sv.guessed_letters.insert c) ∧
    (∀ (sv : MultiWordRegexHangmanSolver) (m : List (List Nat)),
        sv.receive_feedback m = .error .protocolViolation ↔ sv.last_guess = none) ∧
    (∀ (sv sv' : MultiWordRegexHangmanSolver) (m : List (List Nat)),
        sv.receive_feedback m = .ok sv' → sv.last_guess ≠ none ∧ sv'.last_guess = none) := by
  refine ⟨?_, ?_, ?_, ?_, ?_, ?_, ?_, ?_, ?_, ?_⟩
  · intro sv freq h
    unfold HangmanSolver.guess_letter
    cases hl : sv.last_guess with
    | none => exact absurd hl h
    | some g => rfl
  · intro sv freq h
    unfold HangmanSolver.guess_letter
    rw [h]
    cases hg : sv.guessImpl freq with
    | error e =>
      simp only [hg, ne_eq, Except.error.injEq]
      exact HangmanSolver.guessImpl_error hg
    | ok r =>
      obtain ⟨c, sv', freq'⟩ := r
      simp [hg]
  · intro sv freq c sv' freq' h
    unfold HangmanSolver.guess_letter at h
    cases hl : sv.last_guess <;> rw [hl] at h
    · cases hg : sv.guessImpl freq <;> rw [hg] at h
      · simp at h
      · rename_i r
        obtain ⟨c0, sv0, freq0⟩ := r
        simp only [Except.ok.injEq, Prod.mk.injEq] at h
        obtain ⟨rfl, rfl, rfl⟩ := h
        exact ⟨rfl, rfl, by simp [(HangmanSolver.guessImpl_ok hg).1]⟩
    · simp at h
  · intro sv matching_indices
    unfold HangmanSolver.receive_feedback
    cases hl : sv.last_guess <;> simp
  · intro sv sv' matching_indices h
    unfold HangmanSolver.receive_feedback at h
    cases hl : sv.last_guess <;> rw [hl] at h
    · simp at h
    · simp only [Except.ok.injEq] at h
      subst h
      simp
  · intro sv freq h
    unfold MultiWordRegexHangmanSolver.guess_letter
    cases hl : sv.last_guess with
    | none => exact absurd hl h
    | some g => rfl
  · intro sv freq h
    unfold MultiWordRegexHangmanSolver.guess_letter
    rw [h]
    cases hg : MultiWordRegexHangmanSolver.guessFn freq sv with
    | error e =>
      simp only [hg, ne_eq, Except.error.injEq]
      exact multiGuessFn_error_kinds hg
    | ok r =>
      obtain ⟨c, sv'⟩ := r
      simp [hg]
  · intro sv sv' freq freq' c h
    unfold MultiWordRegexHangmanSolver.guess_letter at h
    cases hl : sv.last_guess <;> rw [hl] at h
    · cases hg : MultiWordRegexHangmanSolver.guessFn freq sv <;> rw [hg] at h
      · simp at h
      · rename_i r
        obtain ⟨c0, sv0⟩ := r
        simp only [Except.ok.injEq, Prod.mk.injEq] at h
        obtain ⟨rfl, rfl, rfl⟩ := h
        exact ⟨rfl, rfl, by simp [(multiGuessFn_ok_frame hg).1]⟩
    · simp at h
  · intro sv m
    unfold MultiWordRegexHangmanSolver.receive_feedback
    cases hl : sv.last_guess with
    | none => simp
    | some g =>
      cases hu : updateWords g sv.solution m <;> simp [hu]
  · intro sv sv' m h
    unfold MultiWordRegexHangmanSolver.receive_feedback at h
    cases hl : sv.last_guess with
    | none => simp [hl] at h
    | some g =>
      simp only [hl] at h
      cases hu : updateWords g sv.solution m with
      | none => simp [hu] at h
      | some sol =>
        simp only [hu, Except.ok.injEq] at h
        subst h
        simp [hl]

/-- Witness for C2 at concrete states: a fresh frequency solver (no pending
guess) does not raise `protocolViolation`, and the same solver with a pending
guess does. -/
theorem c2_witness :
    (HangmanSolver.init .frequency 2 [] []).guess_letter letters_by_frequency ≠
        .error .protocolViolation ∧
    ({ HangmanSolver.init .frequency 2 [] [] with
        last_guess := some 'E' } : HangmanSolver).guess_letter letters_by_frequency =
      .error .protocolViolation :=
  ⟨c2_protocol_alternation.2.1 _ _ rfl,
   c2_protocol_alternation.1 _ _ (by decide)⟩

lemma HangmanSolver.guess_letter_frequency {sv : HangmanSolver}
    (hst : sv.strategy = .frequency) (hl : sv.last_guess = none)
    (c : Char) (rest : List Char) :
    sv.guess_letter (c :: rest) =
      .ok (c, { sv with last_guess := some c
                        guessed_letters := sv.guessed_letters.insert c }, rest) := by
  obtain ⟨sol, gl, lg, solv, st, orc, wds⟩ := sv
  dsimp only at hst hl
  subst hst
  subst hl
  rfl

lemma HangmanSolver.receive_feedback_nil {sv : HangmanSolver} {g : Char}
    (hl : sv.last_guess = some g) :
    sv.receive_feedback [] =
      .ok { sv with last_guess := none
                    solved := if '_' ∈ sv.solution then sv.solved else true } := by
  unfold HangmanSolver.receive_feedback
  rw [hl]
  rfl

lemma runOps_roundOps_frequency :
    ∀ (k : Nat) (freq : List Char) (sv : HangmanSolver),
      sv.strategy = .frequency → sv.last_guess = none → k ≤ freq.length →
      ∃ sv' : HangmanSolver,
        runOps (roundOps k) sv freq = some (sv', freq.drop k, freq.take k) ∧
        sv'.strategy = .frequency ∧ sv'.last_guess = none := by
  intro k
  induction k with
  | zero =>
    intro freq sv h1 h2 _
    exact ⟨sv, rfl, h1, h2⟩
  | succ n ih =>
    intro freq sv h1 h2 h3
    cases freq with
    | nil => simp at h3
    | cons c rest =>
      have hfb :=
        @HangmanSolver.receive_feedback_nil
          { sv with last_guess := some c
                    guessed_letters := sv.guessed_letters.insert c } c rfl
      dsimp only at hfb
      obtain ⟨sv', hrun, hst, hlg⟩ :=
        ih rest
          { sv with last_guess := none
                    guessed_letters := sv.guessed_letters.insert c
                    solved := if '_' ∈ sv.solution then sv.solved else true }
          h1 rfl (by simpa using h3)
      refine ⟨sv', ?_, hst, hlg⟩
      simp only [roundOps, runOps, HangmanSolver.guess_letter_frequency h1 h2 c rest, hfb]
      rw [hrun]
      rfl

/-- Claim C8: the Frequency strategy returns letters in exactly the fixed
order E,T,A,O,I,N,S,R,H,D,L,U,C,M,F,Y,W,G,P,B,V,K,X,Q,J,Z, consuming the head
of the deque on each call: for every answer length, a fresh solver driven for
26 protocol rounds returns exactly that sequence (leaving the deque empty),
and the 27th `guess_letter` call fails with `exhausted`. -/
theorem c8_frequency_consumes_fixed_order (n : Nat) :
    ∃ sv' : HangmanSolver,
      runOps (roundOps 26) (HangmanSolver.init .frequency n [] []) letters_by_frequency =
        some (sv', [], "ETAOINSRHDLUCMFYWGPBVKXQJZ".toList) ∧
      sv'.guess_letter [] = .error .exhausted := by
  obtain ⟨sv', hrun, hst, hlg⟩ :=
    runOps_roundOps_frequency 26 letters_by_frequency
      (HangmanSolver.init .frequency n [] []) rfl rfl (by decide)
  refine ⟨sv', ?_, ?_⟩
  · rw [hrun]
    rfl
  · obtain ⟨sol, gl, lg, solv, st, orc, wds⟩ := sv'
    dsimp only at hst hlg
    subst hst
    subst hlg
    rfl

/-- Witness for C8 at the concrete answer length 4. -/
theorem c8_witness :
    ∃ sv' : HangmanSolver,
      runOps (roundOps 26) (HangmanSolver.init .frequency 4 [] []) letters_by_frequency =
        some (sv', [], "ETAOINSRHDLUCMFYWGPBVKXQJZ".toList) ∧
      sv'.guess_letter [] = .error .exhausted :=
  c8_frequency_consumes_fixed_order 4

/-- Claim C10 (evaluation of the code at the failing input): two
`FrequencyHangmanSolver` instances share the class-level deque, so after a
first instance's single `guess_letter` (returning `'E'` and popping it from
the shared deque), a freshly constructed second instance's very first
`guess_letter` returns `'T'`, not `'E'` — the instances are not independent
and the frequency ordering is not per-instance state. -/
theorem c10_shared_class_deque_interference :
    (HangmanSolver.init .frequency 3 [] []).guess_letter letters_by_frequency =
      .ok ('E',
        { solution := ['_', '_', '_'], guessed_letters := ['E'], last_guess := some 'E',
          solved := false, strategy := .frequency, oracle := [], words := [] },
        "TAOINSRHDLUCMFYWGPBVKXQJZ".toList) ∧
    (HangmanSolver.init .frequency 3 [] []).guess_letter
        "TAOINSRHDLUCMFYWGPBVKXQJZ".toList =
      .ok ('T',
        { solution := ['_', '_', '_'], guessed_letters := ['T'], last_guess := some 'T',
          solved := false, strategy := .frequency, oracle := [], words := [] },
        "AOINSRHDLUCMFYWGPBVKXQJZ".toList) := by
  decide

lemma mem_prune {guessed pattern : List Char} {words : List (List Char)}
    {w : List Char} :
    w ∈ prune guessed pattern words ↔ w ∈ words ∧ patMatch guessed pattern w = true := by
  simp [prune, List.mem_filter]

lemma cellMatch_revealed {guessed : List Char} {p c : Char} (hp : p ≠ '_') :
    cellMatch guessed p c = true ↔ c = p := by
  simp [cellMatch, hp]

lemma cellMatch_unknown {guessed : List Char} {c : Char} :
    cellMatch guessed '_' c = true ↔ c ∈ ALL_LETTERS ∧ c ∉ guessed := by
  simp [cellMatch, possible_letters, List.mem_filter]

lemma patMatch_cells {guessed : List Char} :
    ∀ {p w : List Char}, patMatch guessed p w = true →
      w.length = p.length ∧
      ∀ i : Nat, i < p.length →
        cellMatch guessed (p.getD i '_') (w.getD i '_') = true := by
  intro p
  induction p with
  | nil =>
    intro w h
    cases w with
    | nil => simp
    | cons c cs => simp [patMatch] at h
  | cons p ps ih =>
    intro w h
    cases w with
    | nil => simp [patMatch] at h
    | cons c cs =>
      simp only [patMatch, Bool.and_eq_true] at h
      obtain ⟨hcell, hrest⟩ := h
      obtain ⟨hlen, hcells⟩ := ih hrest
      refine ⟨by simpa using hlen, ?_⟩
      intro i hi
      cases i with
      | zero => simpa using hcell
      | succ j =>
        simpa using hcells j (by simpa using hi)

lemma patMatch_length {guessed : List Char} {p w : List Char}
    (h : patMatch guessed p w = true) : w.length = p.length :=
  (patMatch_cells h).1

lemma emptyToksGo_no_underscore :
    ∀ {cells : List Char}, '_' ∉ cells →
      emptyToksGo cells none = some (cells.map RTok.lit) := by
  intro cells
  induction cells with
  | nil => intro _; rfl
  | cons c rest ih =>
    intro h
    have hc : c ≠ '_' := fun hcon => h (hcon ▸ List.mem_cons_self _ _)
    have hrest : '_' ∉ rest := fun hcon => h (List.mem_cons_of_mem _ hcon)
    unfold emptyToksGo
    rw [if_neg hc, ih hrest]
    rfl

lemma rePattern_noEmptyClass {g w : List Char} (h : noEmptyClass g w = true) :
    rePattern g w =
      some (w.map (fun c =>
        if c = '_' then RTok.cls (possible_letters g) else RTok.lit c)) := by
  unfold noEmptyClass at h
  rw [Bool.or_eq_true, decide_eq_true_eq, decide_eq_true_eq] at h
  unfold rePattern
  by_cases hp : possible_letters g = []
  · rw [if_pos hp]
    have hu : '_' ∉ w := by
      rcases h with h1 | h1
      · exact h1
      · exact absurd hp h1
    rw [emptyToksGo_no_underscore hu]
    congr 1
    apply List.map_congr_left
    intro c hc
    have hcu : ¬ c = '_' := by
      intro hcon
      subst hcon
      exact hu hc
    rw [if_neg hcu]
  · rw [if_neg hp]

lemma rtokMatch_map (g : List Char) :
    ∀ (p w : List Char),
      rtokMatch (p.map (fun c =>
        if c = '_' then RTok.cls (possible_letters g) else RTok.lit c)) w =
      patMatch g p w := by
  intro p
  induction p with
  | nil =>
    intro w
    cases w <;> rfl
  | cons x xs ih =>
    intro w
    cases w with
    | nil => rfl
    | cons a as =>
      have htok : RTok.matchTok
          (if x = '_' then RTok.cls (possible_letters g) else RTok.lit x) a =
          cellMatch g x a := by
        by_cases hx : x = '_'
        · rw [if_pos hx, hx]
          rfl
        · rw [if_neg hx]
          unfold cellMatch
          rw [if_neg hx]
          rfl
      show (RTok.matchTok (if x = '_' then RTok.cls (possible_letters g) else RTok.lit x) a
          && rtokMatch (xs.map (fun c =>
                if c = '_' then RTok.cls (possible_letters g) else RTok.lit c)) as) =
        (cellMatch g x a && patMatch g xs as)
      rw [htok, ih as]

lemma reMatch_eq_patMatch {g p : List Char} (h : noEmptyClass g p = true)
    (w : List Char) : reMatch g p w = patMatch g p w := by
  unfold reMatch
  rw [rePattern_noEmptyClass h]
  exact rtokMatch_map g p w

lemma pruneRe_eq_prune {g p : List Char} (h : noEmptyClass g p = true)
    (ws : List (List Char)) : pruneRe g p ws = prune g p ws := by
  unfold pruneRe prune
  exact List.filter_congr (fun w _ => reMatch_eq_patMatch h w)

lemma regexCompiles_of_noEmptyClass {g w : List Char}
    (h : noEmptyClass g w = true) : regexCompiles g w = true := by
  unfold regexCompiles
  rw [rePattern_noEmptyClass h]
  rfl

lemma isSome_option_map {α β : Type} (f : α → β) (o : Option α) :
    (Option.map f o).isSome = o.isSome := by
  cases o <;> rfl

lemma emptyToksGo_isSome :
    ∀ cells : List Char,
      ((emptyToksGo cells none).isSome =
        decide (cells.countP (fun c => decide (c = '_')) % 2 = 0)) ∧
      ∀ acc : List Char, (emptyToksGo cells (some acc)).isSome =
        decide (cells.countP (fun c => decide (c = '_')) % 2 = 1) := by
  intro cells
  induction cells with
  | nil =>
    constructor
    · rfl
    · intro acc
      rfl
  | cons c rest ih =>
    obtain ⟨ih1, ih2⟩ := ih
    by_cases hc : c = '_'
    · subst hc
      have hcount : ('_' :: rest).countP (fun c => decide (c = '_')) =
          rest.countP (fun c => decide (c = '_')) + 1 := by
        rw [List.countP_cons]
        simp
      constructor
      · show (emptyToksGo ('_' :: rest) none).isSome = _
        unfold emptyToksGo
        rw [if_pos rfl, ih2 [']'], hcount]
        apply decide_eq_decide.mpr
        omega
      · intro acc
        show (emptyToksGo ('_' :: rest) (some acc)).isSome = _
        unfold emptyToksGo
        rw [if_pos rfl, isSome_option_map, ih1, hcount]
        apply decide_eq_decide.mpr
        omega
    · have hcount : (c :: rest).countP (fun x => decide (x = '_')) =
          rest.countP (fun x => decide (x = '_')) := by
        rw [List.countP_cons]
        simp [hc]
      constructor
      · show (emptyToksGo (c :: rest) none).isSome = _
        unfold emptyToksGo
        rw [if_neg hc, isSome_option_map, ih1, hcount]
      · intro acc
        show (emptyToksGo (c :: rest) (some acc)).isSome = _
        unfold emptyToksGo
        rw [if_neg hc, ih2 (acc ++ [c]), hcount]

lemma regexCompiles_false_iff (g w : List Char) :
    regexCompiles g w = false ↔
      possible_letters g = [] ∧ w.countP (fun c => decide (c = '_')) % 2 = 1 := by
  unfold regexCompiles rePattern
  by_cases hp : possible_letters g = []
  · rw [if_pos hp]
    have h := (emptyToksGo_isSome w).1
    constructor
    · intro hfalse
      refine ⟨hp, ?_⟩
      rw [hfalse] at h
      have hnot : ¬ (w.countP (fun c => decide (c = '_')) % 2 = 0) :=
        of_decide_eq_false h.symm
      omega
    · rintro ⟨-, hodd⟩
      rw [h]
      apply decide_eq_false
      omega
  · rw [if_neg hp]
    simp only [Option.isSome_some, Bool.true_eq_false, false_iff]
    rintro ⟨hcon, -⟩
    exact hp hcon

/-- Claim C3 (counterexample): with the dictionary `{AB, XYZ}` and slot
length 2, both the single-slot regex solver and the multi-word solver still
hold the 3-letter word `XYZ` in the slot's candidate set at construction
time, before any guess — the candidate sets are seeded with the FULL
dictionary, not restricted to the slot's length. -/
theorem c3_counterexample_no_length_restriction_at_construction :
    "XYZ".toList ∈ (HangmanSolver.init .regex 2 [] ["AB".toList, "XYZ".toList]).words ∧
    "XYZ".toList.length ≠ 2 ∧
    "XYZ".toList ∈
      (MultiWordRegexHangmanSolver.init [2] ["AB".toList, "XYZ".toList]).word_candidates.flatten := by
  decide

/-- Claim C3 as amended: at construction the candidate sets of both
dictionary-backed solvers are exactly the full supplied dictionary, with no
length restriction; the length restriction holds only from the first pruning
on, because a word surviving a slot's pattern necessarily has exactly the
slot's length (and a fresh slot pattern has exactly the constructed length). -/
theorem c3_amended_full_dictionary_then_length_restriction :
    (∀ (strategy : GuessingStrategy) (n : Nat) (oracle : List Nat)
        (dict : List (List Char)),
        (HangmanSolver.init strategy n oracle dict).words = dict ∧
        (HangmanSolver.init strategy n oracle dict).solution.length = n) ∧
    (∀ (lens : List Nat) (dict : List (List Char)),
        (MultiWordRegexHangmanSolver.init lens dict).word_candidates =
          lens.map (fun _ => dict) ∧
        (MultiWordRegexHangmanSolver.init lens dict).solution =
          lens.map (fun n => List.replicate n '_')) ∧
    (∀ (guessed pattern : List Char) (words : List (List Char)) (w : List Char),
        w ∈ prune guessed pattern words → w ∈ words ∧ w.length = pattern.length) := by
  refine ⟨?_, ?_, ?_⟩
  · intro strategy n oracle dict
    exact ⟨rfl, by simp [HangmanSolver.init]⟩
  · intro lens dict
    exact ⟨rfl, rfl⟩
  · intro guessed pattern words w hw
    obtain ⟨hmem, hmatch⟩ := mem_prune.mp hw
    exact ⟨hmem, patMatch_length hmatch⟩

/-- Witness for the amended C3: pruning the unrestricted construction-time
candidate set of the counterexample solver keeps `AB` (the right length) and
the membership/length consequences hold for it. -/
theorem c3_amended_witness :
    "AB".toList ∈ prune [] ['_', '_'] ["AB".toList, "XYZ".toList] ∧
    ("AB".toList ∈ (["AB".toList, "XYZ".toList] : List (List Char)) ∧
      "AB".toList.length = (['_', '_'] : List Char).length) :=
  ⟨by decide,
   c3_amended_full_dictionary_then_length_restriction.2.2 [] ['_', '_']
     ["AB".toList, "XYZ".toList] "AB".toList (by decide)⟩

lemma regexGuessFn_ok_shape {freq : List Char} {sv : HangmanSolver} {c : Char}
    {words' : List (List Char)}
    (h : RegexHangmanSolver.guessFn freq sv = .ok (c, words')) :
    words' = pruneRe sv.guessed_letters sv.solution sv.words ∧
    selectLetter freq sv.guessed_letters (lettersIn words') = .ok c ∧
    regexCompiles sv.guessed_letters sv.solution = true ∧ words' ≠ [] := by
  unfold RegexHangmanSolver.guessFn at h
  split at h
  · simp at h
  · split at h
    · simp at h
    · cases hsel : selectLetter freq sv.guessed_letters
          (lettersIn (pruneRe sv.guessed_letters sv.solution sv.words)) <;> rw [hsel] at h
      · simp at h
      · simp only [Except.ok.injEq, Prod.mk.injEq] at h
        obtain ⟨rfl, rfl⟩ := h
        refine ⟨rfl, hsel, by simp_all, by assumption⟩

lemma computeCandidates_ok {guessed : List Char} {words : List (List Char)} :
    ∀ {sol : List (List Char)} {cands : List (List (List Char))},
      computeCandidates guessed words sol = .ok cands →
      cands = sol.map (fun w => pruneRe guessed w words) ∧
      ∀ cand ∈ cands, cand ≠ [] := by
  intro sol
  induction sol with
  | nil =>
    intro cands h
    simp only [computeCandidates, Except.ok.injEq] at h
    subst h
    simp
  | cons w ws ih =>
    intro cands h
    unfold computeCandidates at h
    split at h
    · simp at h
    · split at h
      · simp at h
      · cases hc : computeCandidates guessed words ws <;> rw [hc] at h
        · simp at h
        · simp only [Except.ok.injEq] at h
          subst h
          obtain ⟨hmap, hne⟩ := ih hc
          refine ⟨by simp [hmap], ?_⟩
          intro cand hcand
          rcases List.mem_cons.mp hcand with rfl | hmem
          · assumption
          · exact hne cand hmem

lemma betterOf_le_left (freq : List Char) (a b : Char) :
    freq.indexOf (betterOf freq a b) ≤ freq.indexOf a := by
  unfold betterOf
  split <;> omega

lemma betterOf_le_right (freq : List Char) (a b : Char) :
    freq.indexOf (betterOf freq a b) ≤ freq.indexOf b := by
  unfold betterOf
  split <;> omega

lemma betterOf_mem (freq : List Char) (a b : Char) :
    betterOf freq a b = a ∨ betterOf freq a b = b := by
  unfold betterOf
  split <;> simp

lemma foldl_betterOf_mem (freq : List Char) :
    ∀ (cs : List Char) (c0 : Char), cs.foldl (betterOf freq) c0 ∈ c0 :: cs := by
  intro cs
  induction cs with
  | nil => simp
  | cons b bs ih =>
    intro c0
    rw [List.foldl_cons]
    have h := ih (betterOf freq c0 b)
    rcases List.mem_cons.mp h with h1 | h1
    · rw [h1]
      rcases betterOf_mem freq c0 b with h2 | h2 <;> rw [h2] <;> simp
    · simp [h1]

lemma foldl_betterOf_min (freq : List Char) :
    ∀ (cs : List Char) (c0 : Char) (d : Char), d ∈ c0 :: cs →
      freq.indexOf (cs.foldl (betterOf freq) c0) ≤ freq.indexOf d := by
  intro cs
  induction cs with
  | nil =>
    intro c0 d hd
    simp at hd
    simp [hd]
  | cons b bs ih =>
    intro c0 d hd
    rw [List.foldl_cons]
    rcases List.mem_cons.mp hd with h1 | h1
    · subst h1
      exact le_trans (ih _ _ (List.mem_cons_self _ _)) (betterOf_le_left freq _ b)
    · rcases List.mem_cons.mp h1 with h2 | h2
      · subst h2
        exact le_trans (ih _ _ (List.mem_cons_self _ _)) (betterOf_le_right freq _ _)
      · exact ih _ _ (List.mem_cons_of_mem _ h2)

lemma selectLetter_ok {freq guessed candidate_letters : List Char} {c : Char}
    (h : selectLetter freq guessed candidate_letters = .ok c) :
    c ∈ candidate_letters ∧ c ∉ guessed ∧ c ∈ freq ∧
    ∀ d ∈ candidate_letters, d ∉ guessed → freq.indexOf c ≤ freq.indexOf d := by
  unfold selectLetter at h
  split at h
  · simp at h
  · rename_i c0 cs heq
    split at h
    · rename_i hall
      simp only [Except.ok.injEq] at h
      subst h
      have hcmem : cs.foldl (betterOf freq) c0 ∈ c0 :: cs := foldl_betterOf_mem freq cs c0
      have hsub : cs.foldl (betterOf freq) c0 ∈ candidate_letters.filter
          (fun x => decide (x ∉ guessed)) := by rw [heq]; exact hcmem
      have hmem2 := List.mem_filter.mp hsub
      refine ⟨hmem2.1, by simpa using hmem2.2, ?_, ?_⟩
      · have := List.all_eq_true.mp hall _ hcmem
        simpa using this
      · intro d hd hdg
        have hdf : d ∈ candidate_letters.filter (fun x => decide (x ∉ guessed)) :=
          List.mem_filter.mpr ⟨hd, by simpa using hdg⟩
        rw [heq] at hdf
        exact foldl_betterOf_min freq cs c0 d hdf
    · simp at h

/-- Claim C5 (counterexample): the claim asserts soundness for EVERY
regex-strategy pruning, but in the reachable state where all 26 letters are
guessed (`ALL_LETTERS` is the guessed set here) while the slot `_A_` still
has unknown cells, the built pattern `'^[]A[]$'` compiles — the first `]` of
each bracket pair is a literal, so the two `[]` pair up into the single
character class `{']','A','['}` — and matches the one-letter dictionary word
`A`: the per-slot loop keeps `{A}` as the slot's candidate set, a word that
carries the guessed letter `A` at the unknown cell 0 and does not even have
the slot's length. -/
theorem c5_counterexample_guessed_letter_survives :
    regexCompiles ALL_LETTERS ['_', 'A', '_'] = true ∧
    pruneRe ALL_LETTERS ['_', 'A', '_'] [['A']] = [['A']] ∧
    computeCandidates ALL_LETTERS [['A']] [['_', 'A', '_']] = .ok [[['A']]] ∧
    (['_', 'A', '_'] : List Char).getD 0 '_' = '_' ∧
    (['A'] : List Char).getD 0 '_' ∈ ALL_LETTERS ∧
    (['A'] : List Char).length ≠ (['_', 'A', '_'] : List Char).length := by
  decide

/-- Claim C5 as amended: immediately after pruning inside a regex-strategy
`guess_letter` call, provided the built pattern has no empty character class
(some letter is still unguessed, or the slot has no unknown cell), every
surviving word has the slot's exact length, agrees with the slot's partial
solution at every revealed cell, and at every unknown cell carries a letter
of the alphabet that is not in the guessed-letter set at the time of pruning.
The first conjunct states this for the code's pruning; the last two tie it to
what the two strategies actually store: the single-slot solver's new `words`
and each slot of the multi-word solver's new `word_candidates` are exactly
such prunings.  (Without the proviso the property fails — see the
counterexample: with all 26 letters guessed the degenerate compiled pattern
can keep words of the wrong length carrying guessed letters at unknown
cells.) -/
theorem c5_pruning_soundness :
    (∀ (guessed pattern : List Char) (words : List (List Char)) (w : List Char),
        noEmptyClass guessed pattern = true →
        w ∈ pruneRe guessed pattern words →
        w.length = pattern.length ∧
        (∀ i, i < pattern.length → pattern.getD i '_' ≠ '_' →
            w.getD i '_' = pattern.getD i '_') ∧
        (∀ i, i < pattern.length → pattern.getD i '_' = '_' →
            w.getD i '_' ∈ ALL_LETTERS ∧ w.getD i '_' ∉ guessed)) ∧
    (∀ (freq : List Char) (sv : HangmanSolver) (c : Char) (words' : List (List Char)),
        RegexHangmanSolver.guessFn freq sv = .ok (c, words') →
        words' = pruneRe sv.guessed_letters sv.solution sv.words) ∧
    (∀ (freq : List Char) (sv sv' : MultiWordRegexHangmanSolver) (c : Char),
        MultiWordRegexHangmanSolver.guessFn freq sv = .ok (c, sv') →
        sv'.word_candidates = sv.solution.map (fun w => pruneRe sv.guessed_letters w sv.words)) := by
  refine ⟨?_, ?_, ?_⟩
  · intro guessed pattern words w hne hw
    rw [pruneRe_eq_prune hne] at hw
    obtain ⟨hmem, hmatch⟩ := mem_prune.mp hw
    obtain ⟨hlen, hcells⟩ := patMatch_cells hmatch
    refine ⟨hlen, ?_, ?_⟩
    · intro i hi hrev
      have := hcells i hi
      rw [cellMatch_revealed hrev] at this
      exact this
    · intro i hi hunk
      have := hcells i hi
      rw [hunk, cellMatch_unknown] at this
      exact this
  · intro freq sv c words' h
    exact (regexGuessFn_ok_shape h).1
  · intro freq sv sv' c h
    unfold MultiWordRegexHangmanSolver.guessFn at h
    cases hc : computeCandidates sv.guessed_letters sv.words sv.solution with
    | error e => simp [hc] at h
    | ok cands =>
      simp only [hc] at h
      cases hsel : selectLetter freq sv.guessed_letters (lettersIn cands.flatten) with
      | error e => simp [hsel] at h
      | ok c0 =>
        simp only [hsel, Except.ok.injEq, Prod.mk.injEq] at h
        obtain ⟨rfl, rfl⟩ := h
        exact (computeCandidates_ok hc).1

/-- Witness for the amended C5: one concrete pruning (dictionary
`{TEST, MOOD}`, pattern `_E__`, guessed `{E}`, a state with no empty
character class) keeps `TEST`, which then satisfies all three soundness
conclusions. -/
theorem c5_witness :
    "TEST".toList.length = ['_', 'E', '_', '_'].length ∧
    (∀ i, i < (['_', 'E', '_', '_'] : List Char).length →
        (['_', 'E', '_', '_'] : List Char).getD i '_' ≠ '_' →
        "TEST".toList.getD i '_' = (['_', 'E', '_', '_'] : List Char).getD i '_') ∧
    (∀ i, i < (['_', 'E', '_', '_'] : List Char).length →
        (['_', 'E', '_', '_'] : List Char).getD i '_' = '_' →
        "TEST".toList.getD i '_' ∈ ALL_LETTERS ∧ "TEST".toList.getD i '_' ∉ ['E']) :=
  c5_pruning_soundness.1 ['E'] ['_', 'E', '_', '_'] ["TEST".toList, "MOOD".toList]
    "TEST".toList (by decide) (by decide)

lemma HangmanSolver.guess_letter_regex_ok {sv sv' : HangmanSolver}
    {freq freq' : List Char} {c : Char} (hst : sv.strategy = .regex)
    (h : sv.guess_letter freq = .ok (c, sv', freq')) :
    sv.last_guess = none ∧
    sv'.words = pruneRe sv.guessed_letters sv.solution sv.words ∧
    selectLetter freq sv.guessed_letters (lettersIn sv'.words) = .ok c := by
  unfold HangmanSolver.guess_letter at h
  cases hl : sv.last_guess <;> rw [hl] at h
  · unfold HangmanSolver.guessImpl at h
    rw [hst] at h
    cases hg : RegexHangmanSolver.guessFn freq sv with
    | error e => simp [hg] at h
    | ok r =>
      obtain ⟨c0, w'⟩ := r
      simp only [hg, Except.ok.injEq, Prod.mk.injEq] at h
      obtain ⟨rfl, rfl, rfl⟩ := h
      obtain ⟨hw, hsel, _, _⟩ := regexGuessFn_ok_shape hg
      exact ⟨rfl, hw, hsel⟩
  · simp at h

lemma HangmanSolver.guess_letter_regex_propagates {sv : HangmanSolver}
    {freq : List Char} {e : Err} (hst : sv.strategy = .regex)
    (hl : sv.last_guess = none) (h : RegexHangmanSolver.guessFn freq sv = .error e) :
    sv.guess_letter freq = .error e := by
  unfold HangmanSolver.guess_letter HangmanSolver.guessImpl
  rw [hl, hst, h]

/-- Claim C1 (counterexample): the claim asserts that the single-slot regex
`guess_letter` fails with `noCandidates` whenever the set of words surviving
its per-cell matcher is empty; but with all 26 letters already guessed while
unknown cells remain that clause fails in both parity cases.  Odd number of
unknown cells (solution `_`, words `{A}`): the per-cell pruned set is empty,
yet `re.compile('^[]$')` raises `re.error: unterminated character set`, so
the call fails with the regex compilation error, not `noCandidates`.  Even
number (solution `_A_`, words `{A}`): `'^[]A[]$'` compiles — the first `]`
of each bracket pair is a literal — and matches the word `A`, so although
the per-cell pruned set is again empty, the call proceeds past the emptiness
test and fails with `exhausted` instead of `noCandidates`. -/
theorem c1_counterexample_empty_character_class :
    (prune ALL_LETTERS ['_'] [['A']] = [] ∧
      ({ solution := ['_'], guessed_letters := ALL_LETTERS, last_guess := none,
         solved := false, strategy := .regex, oracle := [],
         words := [['A']] } : HangmanSolver).guess_letter letters_by_frequency =
        .error .regexError) ∧
    (prune ALL_LETTERS ['_', 'A', '_'] [['A']] = [] ∧
      ({ solution := ['_', 'A', '_'], guessed_letters := ALL_LETTERS, last_guess := none,
         solved := false, strategy := .regex, oracle := [],
         words := [['A']] } : HangmanSolver).guess_letter letters_by_frequency =
        .error .exhausted) := by
  decide

/-- Claim C1 as amended: for the single-slot regex strategy, a successful
`guess_letter` returns a letter occurring in the pruned surviving candidates,
not yet guessed, with the lowest index in the fixed frequency ordering among
all such letters; when the pattern compiles, the call fails with
`noCandidates` when the set of words surviving the compiled pattern is empty
and with `exhausted` when every letter of every surviving candidate is
already guessed; the pattern fails to compile — and the call fails with the
regex error instead — exactly when all 26 letters are guessed while an odd
number of cells are unknown; and whenever the pattern has no empty character
class (some letter unguessed, or no unknown cell) the compiled pattern's
matcher is exactly the claim's per-cell matcher, so in that region the
pruned set is the claim's pruned set. -/
theorem c1_regex_single_slot_selection :
    (∀ (sv sv' : HangmanSolver) (freq' : List Char) (c : Char),
        sv.strategy = .regex →
        sv.guess_letter letters_by_frequency = .ok (c, sv', freq') →
        sv'.words = pruneRe sv.guessed_letters sv.solution sv.words ∧
        c ∈ lettersIn sv'.words ∧ c ∉ sv.guessed_letters ∧
        ∀ d ∈ lettersIn sv'.words, d ∉ sv.guessed_letters →
          letters_by_frequency.indexOf c ≤ letters_by_frequency.indexOf d) ∧
    (∀ sv : HangmanSolver,
        sv.strategy = .regex → sv.last_guess = none →
        regexCompiles sv.guessed_letters sv.solution = true →
        pruneRe sv.guessed_letters sv.solution sv.words = [] →
        sv.guess_letter letters_by_frequency = .error .noCandidates) ∧
    (∀ sv : HangmanSolver,
        sv.strategy = .regex → sv.last_guess = none →
        regexCompiles sv.guessed_letters sv.solution = true →
        pruneRe sv.guessed_letters sv.solution sv.words ≠ [] →
        (∀ d ∈ lettersIn (pruneRe sv.guessed_letters sv.solution sv.words),
            d ∈ sv.guessed_letters) →
        sv.guess_letter letters_by_frequency = .error .exhausted) ∧
    (∀ sv : HangmanSolver,
        sv.strategy = .regex → sv.last_guess = none →
        regexCompiles sv.guessed_letters sv.solution = false →
        sv.guess_letter letters_by_frequency = .error .regexError) ∧
    (∀ guessed word : List Char,
        regexCompiles guessed word = false ↔
          possible_letters guessed = [] ∧
          word.countP (fun c => decide (c = '_')) % 2 = 1) ∧
    (∀ guessed pattern w : List Char,
        noEmptyClass guessed pattern = true →
        reMatch guessed pattern w = patMatch guessed pattern w) := by
  refine ⟨?_, ?_, ?_, ?_, ?_, ?_⟩
  · intro sv sv' freq' c hst h
    obtain ⟨-, hw, hsel⟩ := HangmanSolver.guess_letter_regex_ok hst h
    obtain ⟨hmem, hng, -, hmin⟩ := selectLetter_ok hsel
    exact ⟨hw, hmem, hng, hmin⟩
  · intro sv hst hl hcomp hpr
    apply HangmanSolver.guess_letter_regex_propagates hst hl
    unfold RegexHangmanSolver.guessFn
    rw [hcomp]
    simp [hpr]
  · intro sv hst hl hcomp hpr hall
    apply HangmanSolver.guess_letter_regex_propagates hst hl
    unfold RegexHangmanSolver.guessFn
    rw [hcomp]
    have hfil : (lettersIn (pruneRe sv.guessed_letters sv.solution sv.words)).filter
        (fun c => decide (c ∉ sv.guessed_letters)) = [] := by
      rw [List.filter_eq_nil_iff]
      intro a ha
      simpa using hall a ha
    simp only [Bool.false_eq_true, if_false, if_neg hpr, selectLetter, hfil]
    rfl
  · intro sv hst hl hcomp
    apply HangmanSolver.guess_letter_regex_propagates hst hl
    unfold RegexHangmanSolver.guessFn
    rw [hcomp]
    rfl
  · exact regexCompiles_false_iff
  · exact fun guessed pattern w h => reMatch_eq_patMatch h w

/-- Witness for the amended C1, exercising the branches at concrete states:
the dictionary `{TEST, BEST}` with nothing guessed yields `E` (the
lowest-frequency-index candidate letter) with the full pruned set kept; a
state whose pattern excludes every word fails with `noCandidates`; a state
whose surviving candidates contain only already-guessed letters fails with
`exhausted`; the all-guessed state with one unknown cell fails with the
regex error, and its pattern indeed has an odd number of unknown cells; and
on a concrete no-empty-class pattern the real matcher agrees with the
per-cell matcher. -/
theorem c1_witness :
    ((HangmanSolver.init .regex 4 []
        ["TEST".toList, "BEST".toList]).guess_letter letters_by_frequency =
      .ok ('E',
        { solution := "____".toList, guessed_letters := ['E'], last_guess := some 'E',
          solved := false, strategy := .regex, oracle := [],
          words := ["TEST".toList, "BEST".toList] },
        letters_by_frequency) ∧
      'E' ∈ lettersIn ["TEST".toList, "BEST".toList] ∧ 'E' ∉ ([] : List Char)) ∧
    ({ solution := ['_'], guessed_letters := ['A'], last_guess := none,
        solved := false, strategy := .regex, oracle := [],
        words := [['A']] } : HangmanSolver).guess_letter letters_by_frequency =
      .error .noCandidates ∧
    ({ solution := ['A'], guessed_letters := ['A'], last_guess := none,
        solved := false, strategy := .regex, oracle := [],
        words := [['A']] } : HangmanSolver).guess_letter letters_by_frequency =
      .error .exhausted ∧
    ({ solution := ['_', '_', '_'], guessed_letters := ALL_LETTERS, last_guess := none,
        solved := false, strategy := .regex, oracle := [],
        words := [['A']] } : HangmanSolver).guess_letter letters_by_frequency =
      .error .regexError ∧
    regexCompiles ALL_LETTERS ['_', '_', '_'] = false ∧
    reMatch [] ['_', 'E', '_', '_'] "TEST".toList =
      patMatch [] ['_', 'E', '_', '_'] "TEST".toList := by
  have hok := c1_regex_single_slot_selection.1
    (HangmanSolver.init .regex 4 [] ["TEST".toList, "BEST".toList])
    { solution := "____".toList, guessed_letters := ['E'], last_guess := some 'E',
      solved := false, strategy := .regex, oracle := [],
      words := ["TEST".toList, "BEST".toList] }
    letters_by_frequency 'E' rfl (by decide)
  refine ⟨⟨by decide, hok.2.1, hok.2.2.1⟩, ?_, ?_, ?_, ?_, ?_⟩
  · exact c1_regex_single_slot_selection.2.1
      { solution := ['_'], guessed_letters := ['A'], last_guess := none,
        solved := false, strategy := .regex, oracle := [], words := [['A']] }
      rfl rfl (by decide) (by decide)
  · exact c1_regex_single_slot_selection.2.2.1
      { solution := ['A'], guessed_letters := ['A'], last_guess := none,
        solved := false, strategy := .regex, oracle := [], words := [['A']] }
      rfl rfl (by decide) (by decide) (by decide)
  · exact c1_regex_single_slot_selection.2.2.2.1
      { solution := ['_', '_', '_'], guessed_letters := ALL_LETTERS, last_guess := none,
        solved := false, strategy := .regex, oracle := [], words := [['A']] }
      rfl rfl (by decide)
  · exact (c1_regex_single_slot_selection.2.2.2.2.1 ALL_LETTERS
      ['_', '_', '_']).mpr ⟨by decide, by decide⟩
  · exact c1_regex_single_slot_selection.2.2.2.2.2 [] ['_', 'E', '_', '_']
      "TEST".toList (by decide)

lemma setIndex_eq_set {s : List Char} {c : Char} {index : Nat} (h : index < s.length) :
    setIndex s c index = s.set index c :=
  (List.set_eq_take_cons_drop c h).symm

lemma foldl_setIndex_length (g : Char) :
    ∀ (matching_indices : List Nat) (s : List Char),
      (∀ i ∈ matching_indices, i < s.length) →
      (matching_indices.foldl (fun s index => setIndex s g index) s).length = s.length := by
  intro matching_indices
  induction matching_indices with
  | nil => intro s _; rfl
  | cons i rest ih =>
    intro s h
    have hi : i < s.length := h i (List.mem_cons_self _ _)
    rw [List.foldl_cons]
    have hlen : (setIndex s g i).length = s.length := by
      rw [setIndex_eq_set hi, List.length_set]
    rw [ih (setIndex s g i) (by rw [hlen]; exact fun j hj => h j (List.mem_cons_of_mem _ hj)),
      hlen]

lemma foldl_setIndex_getElem? (g : Char) :
    ∀ (matching_indices : List Nat) (s : List Char),
      (∀ i ∈ matching_indices, i < s.length) → ∀ j : Nat,
      (matching_indices.foldl (fun s index => setIndex s g index) s)[j]? =
        if j ∈ matching_indices then some g else s[j]? := by
  intro matching_indices
  induction matching_indices with
  | nil => intro s _ j; simp
  | cons i rest ih =>
    intro s h j
    have hi : i < s.length := h i (List.mem_cons_self _ _)
    have hlen : (setIndex s g i).length = s.length := by
      rw [setIndex_eq_set hi, List.length_set]
    rw [List.foldl_cons,
      ih (setIndex s g i) (by rw [hlen]; exact fun k hk => h k (List.mem_cons_of_mem _ hk)) j]
    by_cases hjr : j ∈ rest
    · simp [hjr]
    · by_cases hji : j = i
      · subst hji
        simp [hjr, setIndex_eq_set hi, List.getElem?_set_eq_of_lt g hi]
      · have : (setIndex s g i)[j]? = s[j]? := by
          rw [setIndex_eq_set hi]
          exact List.getElem?_set_ne (fun hcon => hji hcon.symm)
        simp [hjr, hji, this]

lemma updateWords_spec (g : Char) :
    ∀ (m : List (List Nat)) (sol : List (List Char)), m.length ≤ sol.length →
      ∃ sol', updateWords g sol m = some sol' ∧
        sol'.length = sol.length ∧
        (∀ k, k < m.length →
          sol'[k]? =
            some ((m.getD k []).foldl (fun s index => setIndex s g index) (sol.getD k []))) ∧
        (∀ k, m.length ≤ k → sol'[k]? = sol[k]?) := by
  intro m
  induction m with
  | nil =>
    intro sol _
    refine ⟨sol, ?_, rfl, fun k hk => by simp at hk, fun k _ => rfl⟩
    cases sol <;> rfl
  | cons idxs rest ih =>
    intro sol hle
    cases sol with
    | nil => simp at hle
    | cons w ws =>
      obtain ⟨ws', hws', hlen, hin, hout⟩ := ih ws (by simpa using hle)
      refine ⟨(idxs.foldl (fun s index => setIndex s g index) w) :: ws', ?_, by simpa using hlen,
        ?_, ?_⟩
      · unfold updateWords
        rw [hws']
      · intro k hk
        cases k with
        | zero => simp
        | succ k' =>
          have := hin k' (by simpa using hk)
          simpa using this
      · intro k hk
        cases k with
        | zero => simp at hk
        | succ k' =>
          have := hout k' (by simpa using hk)
          simpa using this

/-- Claim C6: when a guess is pending and `receive_feedback` gets valid
in-range position sets, it writes the pending letter exactly at the reported
positions and leaves every other cell, every slot's length, the number of
slots, the dictionary/candidate state and the guessed-letter set unchanged;
starting from an unsolved state it sets `solved` exactly when every cell of
every slot is then revealed; and with all-empty position sets the partial
solution is unchanged.  (First conjunct: the single-slot
`HangmanSolver.receive_feedback`; second: the multi-word override, whose
in-range inputs always succeed.) -/
theorem c6_feedback_writes_positions_frame :
    (∀ (sv sv' : HangmanSolver) (g : Char) (matching_indices : List Nat),
        sv.last_guess = some g →
        (∀ i ∈ matching_indices, i < sv.solution.length) →
        sv.receive_feedback matching_indices = .ok sv' →
        sv'.solution.length = sv.solution.length ∧
        (∀ j ∈ matching_indices, sv'.solution[j]? = some g) ∧
        (∀ j : Nat, j ∉ matching_indices → sv'.solution[j]? = sv.solution[j]?) ∧
        sv'.guessed_letters = sv.guessed_letters ∧
        sv'.last_guess = none ∧ sv'.words = sv.words ∧
        (sv.solved = false → (sv'.solved = true ↔ '_' ∉ sv'.solution)) ∧
        (matching_indices = [] → sv'.solution = sv.solution)) ∧
    (∀ (sv : MultiWordRegexHangmanSolver) (g : Char) (m : List (List Nat)),
        sv.last_guess = some g →
        m.length = sv.solution.length →
        (∀ k, k < m.length → ∀ i ∈ m.getD k [], i < (sv.solution.getD k []).length) →
        ∃ sv', sv.receive_feedback m = .ok sv' ∧
          sv'.solution.length = sv.solution.length ∧
          (∀ k, k < m.length →
            (sv'.solution.getD k []).length = (sv.solution.getD k []).length ∧
            (∀ j ∈ m.getD k [], (sv'.solution.getD k [])[j]? = some g) ∧
            (∀ j : Nat, j ∉ m.getD k [] →
                (sv'.solution.getD k [])[j]? = (sv.solution.getD k [])[j]?)) ∧
          sv'.guessed_letters = sv.guessed_letters ∧
          sv'.last_guess = none ∧ sv'.words = sv.words ∧
          sv'.word_candidates = sv.word_candidates ∧
          (sv.solved = false → (sv'.solved = true ↔ ∀ w ∈ sv'.solution, '_' ∉ w)) ∧
          ((∀ l ∈ m, l = []) → sv'.solution = sv.solution)) := by
  constructor
  · intro sv sv' g matching_indices hl hrange h
    unfold HangmanSolver.receive_feedback at h
    rw [hl] at h
    simp only [Except.ok.injEq] at h
    subst h
    refine ⟨foldl_setIndex_length g _ _ hrange, ?_, ?_, rfl, rfl, rfl, ?_, ?_⟩
    · intro j hj
      rw [foldl_setIndex_getElem? g _ _ hrange j, if_pos hj]
    · intro j hj
      rw [foldl_setIndex_getElem? g _ _ hrange j, if_neg hj]
    · intro hs
      dsimp only
      rw [hs]
      by_cases hu : '_' ∈ matching_indices.foldl (fun s index => setIndex s g index) sv.solution
      · simp [hu]
      · simp [hu]
    · intro hnil
      subst hnil
      rfl
  · intro sv g m hl hmlen hrange
    obtain ⟨sol', hupd, hlen', hin, hout⟩ := updateWords_spec g m sv.solution (le_of_eq hmlen)
    have hgetD : ∀ k, k < m.length →
        sol'.getD k [] =
          (m.getD k []).foldl (fun s index => setIndex s g index) (sv.solution.getD k []) := by
      intro k hk
      rw [List.getD_eq_getElem?_getD, hin k hk]
      rfl
    refine
      ⟨{ sv with
          solution := sol'
          last_guess := none
          solved := if sol'.any (fun w => decide ('_' ∈ w)) then sv.solved else true },
        ?_, hlen', ?_, rfl, rfl, rfl, rfl, ?_, ?_⟩
    · unfold MultiWordRegexHangmanSolver.receive_feedback
      simp only [hl, hupd]
    · intro k hk
      try dsimp only
      rw [hgetD k hk]
      exact ⟨foldl_setIndex_length g _ _ (hrange k hk),
        fun j hj => by rw [foldl_setIndex_getElem? g _ _ (hrange k hk) j, if_pos hj],
        fun j hj => by rw [foldl_setIndex_getElem? g _ _ (hrange k hk) j, if_neg hj]⟩
    · intro hs
      try dsimp only
      rw [hs]
      by_cases hu : sol'.any (fun w => decide ('_' ∈ w)) = true
      · rw [if_pos hu]
        simp only [List.any_eq_true, decide_eq_true_eq] at hu
        obtain ⟨w, hw, hu⟩ := hu
        simp only [Bool.false_eq_true, false_iff]
        push_neg
        exact ⟨w, hw, hu⟩
      · rw [if_neg hu]
        simp only [List.any_eq_true, decide_eq_true_eq, not_exists, not_and] at hu
        simpa using fun w hw => hu w hw
    · intro hempty
      try dsimp only
      apply List.ext_getElem?
      intro k
      by_cases hk : k < m.length
      · rw [hin k hk]
        have hmk : m.getD k [] = [] := hempty _ (by
          rw [List.getD_eq_getElem?_getD, List.getElem?_eq_getElem hk]
          exact List.getElem_mem _)
        rw [hmk]
        simp only [List.foldl_nil]
        rw [List.getD_eq_getElem?_getD, List.getElem?_eq_getElem (hmlen ▸ hk)]
        rfl
      · exact hout k (le_of_not_lt hk)

/-- Witness for C6: concrete single-slot feedback writing `T` at positions 0
and 3 of `____` (checking a written cell, an untouched cell, the cleared
pending guess, and the unsolved flag), and the multi-word all-miss feedback
of the spec scenario leaving both slots untouched and unsolved. -/
theorem c6_witness :
    (({ solution := "____".toList, guessed_letters := ['T'], last_guess := some 'T',
        solved := false, strategy := .regex, oracle := [],
        words := [] } : HangmanSolver).receive_feedback [0, 3] =
        .ok { solution := "T__T".toList, guessed_letters := ['T'], last_guess := none,
              solved := false, strategy := .regex, oracle := [], words := [] } ∧
      ("T__T".toList[0]? = some 'T' ∧ "T__T".toList[1]? = "____".toList[1]?)) ∧
    ∃ sv' : MultiWordRegexHangmanSolver,
      ({ solution := ["____".toList, "____".toList], guessed_letters := ['Q'],
         last_guess := some 'Q', solved := false, words := [],
         word_candidates := [[], []] } : MultiWordRegexHangmanSolver).receive_feedback
          [[], []] = .ok sv' ∧
      sv'.solution = ["____".toList, "____".toList] ∧ sv'.solved = false := by
  constructor
  · refine ⟨by decide, ?_, ?_⟩
    · exact (c6_feedback_writes_positions_frame.1
        { solution := "____".toList, guessed_letters := ['T'], last_guess := some 'T',
          solved := false, strategy := .regex, oracle := [], words := [] }
        { solution := "T__T".toList, guessed_letters := ['T'], last_guess := none,
          solved := false, strategy := .regex, oracle := [], words := [] }
        'T' [0, 3] rfl (by decide) (by decide)).2.1 0 (by decide)
    · exact (c6_feedback_writes_positions_frame.1
        { solution := "____".toList, guessed_letters := ['T'], last_guess := some 'T',
          solved := false, strategy := .regex, oracle := [], words := [] }
        { solution := "T__T".toList, guessed_letters := ['T'], last_guess := none,
          solved := false, strategy := .regex, oracle := [], words := [] }
        'T' [0, 3] rfl (by decide) (by decide)).2.2.1 1 (by decide)
  · obtain ⟨sv', hok, hlen, hslots, hguessed, hlast, hwords, hcand, hsolved, hall⟩ :=
      c6_feedback_writes_positions_frame.2
        { solution := ["____".toList, "____".toList], guessed_letters := ['Q'],
          last_guess := some 'Q', solved := false, words := [],
          word_candidates := [[], []] }
        'Q' [[], []] rfl (by decide) (by decide)
    have hsol : sv'.solution = ["____".toList, "____".toList] := hall (by decide)
    refine ⟨sv', hok, hsol, ?_⟩
    have hiff := hsolved rfl
    cases hb : sv'.solved with
    | false => rfl
    | true =>
      exfalso
      have := hiff.mp hb
      rw [hsol] at this
      exact absurd this (by decide)

lemma length_filter_mono {α : Type} {p q : α → Bool} (l : List α)
    (h : ∀ a ∈ l, p a = true → q a = true) :
    (List.filter p l).length ≤ (List.filter q l).length := by
  rw [← List.countP_eq_length_filter, ← List.countP_eq_length_filter]
  exact List.countP_mono_left h

lemma letters_by_frequency_subset_ALL {c : Char} (h : c ∈ letters_by_frequency) :
    c ∈ ALL_LETTERS := by
  have hall : letters_by_frequency.all (fun c => decide (c ∈ ALL_LETTERS)) = true := by decide
  simpa using List.all_eq_true.mp hall c h

lemma underscore_not_mem_ALL : '_' ∉ ALL_LETTERS := by decide

lemma cellMatch_mono {G : List Char} {c : Char} (hc : c ∈ ALL_LETTERS) (hcg : c ∉ G)
    {p2 p w : Char}
    (hcell : p ≠ '_' → p2 = p) (hunk : p = '_' → p2 = '_' ∨ p2 = c)
    (h : cellMatch (G.insert c) p2 w = true) : cellMatch G p w = true := by
  by_cases hp : p = '_'
  · subst hp
    rcases hunk rfl with h2 | h2
    · subst h2
      rw [cellMatch_unknown] at h ⊢
      obtain ⟨hw1, hw2⟩ := h
      exact ⟨hw1, fun hmem => hw2 (List.mem_insert_iff.mpr (Or.inr hmem))⟩
    · rw [h2] at h
      have hcu : c ≠ '_' := fun hcon => underscore_not_mem_ALL (hcon ▸ hc)
      rw [cellMatch_revealed hcu] at h
      subst h
      rw [cellMatch_unknown]
      exact ⟨hc, hcg⟩
  · rw [hcell hp] at h
    rw [cellMatch_revealed hp] at h ⊢
    exact h

lemma patMatch_mono {G : List Char} {c : Char} (hc : c ∈ ALL_LETTERS) (hcg : c ∉ G) :
    ∀ {p p2 w : List Char},
      p2.length = p.length →
      (∀ j, j < p.length →
        (p.getD j '_' ≠ '_' → p2.getD j '_' = p.getD j '_') ∧
        (p.getD j '_' = '_' → p2.getD j '_' = '_' ∨ p2.getD j '_' = c)) →
      patMatch (G.insert c) p2 w = true → patMatch G p w = true := by
  intro p
  induction p with
  | nil =>
    intro p2 w hlen hcells h
    cases p2 with
    | nil => cases w with
      | nil => rfl
      | cons _ _ => simp [patMatch] at h
    | cons _ _ => simp at hlen
  | cons x xs ih =>
    intro p2 w hlen hcells h
    cases p2 with
    | nil => simp at hlen
    | cons y ys =>
      cases w with
      | nil => simp [patMatch] at h
      | cons a as =>
        simp only [patMatch, Bool.and_eq_true] at h ⊢
        obtain ⟨hcell, hrest⟩ := h
        have h0 := hcells 0 (by simp)
        refine ⟨cellMatch_mono hc hcg (by simpa using h0.1) (by simpa using h0.2) hcell, ?_⟩
        refine ih (by simpa using hlen) ?_ hrest
        intro j hj
        have := hcells (j + 1) (by simpa using hj)
        simpa using this

lemma multiGuessFn_ok_full {freq : List Char}
    {sv sv' : MultiWordRegexHangmanSolver} {c : Char}
    (h : MultiWordRegexHangmanSolver.guessFn freq sv = .ok (c, sv')) :
    sv'.word_candidates = sv.solution.map (fun w => pruneRe sv.guessed_letters w sv.words) ∧
    c ∉ sv.guessed_letters ∧ c ∈ freq ∧
    sv'.solution = sv.solution ∧ sv'.guessed_letters = sv.guessed_letters ∧
    sv'.last_guess = sv.last_guess ∧ sv'.words = sv.words := by
  unfold MultiWordRegexHangmanSolver.guessFn at h
  cases hc : computeCandidates sv.guessed_letters sv.words sv.solution with
  | error e => simp [hc] at h
  | ok cands =>
    simp only [hc] at h
    cases hsel : selectLetter freq sv.guessed_letters (lettersIn cands.flatten) with
    | error e => simp [hsel] at h
    | ok c0 =>
      simp only [hsel, Except.ok.injEq, Prod.mk.injEq] at h
      obtain ⟨rfl, rfl⟩ := h
      obtain ⟨hm, hng, hfreq, -⟩ := selectLetter_ok hsel
      exact ⟨(computeCandidates_ok hc).1, hng, hfreq, rfl, rfl, rfl, rfl⟩

lemma MultiWordRegexHangmanSolver.guess_letter_ok {sv sv' : MultiWordRegexHangmanSolver}
    {freq freq' : List Char} {c : Char}
    (h : sv.guess_letter freq = .ok (c, sv', freq')) :
    sv.last_guess = none ∧ freq' = freq ∧
    sv'.word_candidates = sv.solution.map (fun w => pruneRe sv.guessed_letters w sv.words) ∧
    sv'.solution = sv.solution ∧ sv'.words = sv.words ∧
    sv'.guessed_letters = sv.guessed_letters.insert c ∧ sv'.last_guess = some c ∧
    c ∉ sv.guessed_letters ∧ c ∈ freq := by
  unfold MultiWordRegexHangmanSolver.guess_letter at h
  cases hl : sv.last_guess <;> rw [hl] at h
  · cases hg : MultiWordRegexHangmanSolver.guessFn freq sv with
    | error e => simp [hg] at h
    | ok r =>
      obtain ⟨c0, sv0⟩ := r
      simp only [hg, Except.ok.injEq, Prod.mk.injEq] at h
      obtain ⟨rfl, rfl, rfl⟩ := h
      obtain ⟨hcand, hng, hfreq, hsol, hgl, -, hwords⟩ :=
        multiGuessFn_ok_full hg
      exact ⟨rfl, rfl, by simpa [hgl] using hcand, hsol, hwords, by rw [hgl], rfl, hng, hfreq⟩
  · simp at h

lemma MultiWordRegexHangmanSolver.receive_feedback_ok
    {sv sv' : MultiWordRegexHangmanSolver} {m : List (List Nat)} {g : Char}
    (hl : sv.last_guess = some g) (h : sv.receive_feedback m = .ok sv') :
    updateWords g sv.solution m = some sv'.solution ∧
    sv'.guessed_letters = sv.guessed_letters ∧ sv'.last_guess = none ∧
    sv'.words = sv.words ∧ sv'.word_candidates = sv.word_candidates := by
  unfold MultiWordRegexHangmanSolver.receive_feedback at h
  simp only [hl] at h
  cases hu : updateWords g sv.solution m with
  | none => simp [hu] at h
  | some sol =>
    simp only [hu, Except.ok.injEq] at h
    subst h
    exact ⟨rfl, rfl, rfl, rfl, rfl⟩

lemma honestIndices_length (answer : List (List Char)) (g : Char) :
    (honestIndices answer g).length = answer.length := by
  simp [honestIndices]

lemma honestIndices_getD {answer : List (List Char)} {g : Char} {k : Nat}
    (hk : k < answer.length) :
    (honestIndices answer g).getD k [] =
      (List.range (answer.getD k []).length).filter
        (fun i => decide ((answer.getD k []).getD i ' ' = g)) := by
  unfold honestIndices
  rw [List.getD_eq_getElem?_getD, List.getElem?_map, List.getElem?_eq_getElem hk,
    List.getD_eq_getElem?_getD, List.getElem?_eq_getElem hk]
  rfl

lemma honest_round_solution {answer sol sol' : List (List Char)} {c : Char}
    (hcons : consistentWith answer sol)
    (hupd : updateWords c sol (honestIndices answer c) = some sol') :
    sol'.length = sol.length ∧
    ∀ k, k < sol.length →
      (sol'.getD k []).length = (sol.getD k []).length ∧
      ∀ j, j < (sol.getD k []).length →
        (sol'.getD k []).getD j '_' =
          (if (answer.getD k []).getD j ' ' = c then c
            else (sol.getD k []).getD j '_') := by
  obtain ⟨hanslen, hslots⟩ := hcons
  have hmlen : (honestIndices answer c).length ≤ sol.length := by
    rw [honestIndices_length, hanslen]
  obtain ⟨sol'', hupd'', hlen'', hin, hout⟩ := updateWords_spec c (honestIndices answer c) sol hmlen
  rw [hupd''] at hupd
  have heq : sol'' = sol' := by simpa using hupd
  rw [heq] at hin hout hlen''
  have hm : ∀ k, k < sol.length →
      (honestIndices answer c).getD k [] =
        (List.range (answer.getD k []).length).filter
          (fun i => decide ((answer.getD k []).getD i ' ' = c)) :=
    fun k hk => honestIndices_getD (by rw [hanslen]; exact hk)
  have hrange : ∀ k, k < sol.length →
      ∀ i ∈ (honestIndices answer c).getD k [], i < (sol.getD k []).length := by
    intro k hk i hi
    rw [hm k hk] at hi
    obtain ⟨hir, -⟩ := List.mem_filter.mp hi
    rw [List.mem_range] at hir
    rw [← (hslots k hk).1]
    exact hir
  have hkm : ∀ k, k < sol.length → k < (honestIndices answer c).length := by
    intro k hk
    rw [honestIndices_length, hanslen]
    exact hk
  refine ⟨hlen'', ?_⟩
  intro k hk
  have hget : sol'.getD k [] =
      ((honestIndices answer c).getD k []).foldl
        (fun s index => setIndex s c index) (sol.getD k []) := by
    rw [List.getD_eq_getElem?_getD, hin k (hkm k hk)]
    rfl
  constructor
  · rw [hget]
    exact foldl_setIndex_length c _ _ (hrange k hk)
  · intro j hj
    have hjlen : j < (sol'.getD k []).length := by
      rw [hget, foldl_setIndex_length c _ _ (hrange k hk)]
      exact hj
    have hcell : (sol'.getD k [])[j]? =
        if j ∈ (honestIndices answer c).getD k [] then some c
        else (sol.getD k [])[j]? := by
      rw [hget]
      exact foldl_setIndex_getElem? c _ _ (hrange k hk) j
    have hmem : j ∈ (honestIndices answer c).getD k [] ↔
        (answer.getD k []).getD j ' ' = c := by
      rw [hm k hk]
      simp only [List.mem_filter, List.mem_range, decide_eq_true_eq]
      constructor
      · exact fun hx => hx.2
      · intro hx
        exact ⟨by rw [(hslots k hk).1]; exact hj, hx⟩
    by_cases hcase : (answer.getD k []).getD j ' ' = c
    · rw [if_pos hcase]
      rw [List.getD_eq_getElem?_getD, hcell, if_pos (hmem.mpr hcase)]
      rfl
    · rw [if_neg hcase]
      rw [List.getD_eq_getElem?_getD, hcell, if_neg (fun hx => hcase (hmem.mp hx)),
        ← List.getD_eq_getElem?_getD]

lemma getD_default_eq {l : List Char} {j : Nat} (h : j < l.length) (d d' : Char) :
    l.getD j d = l.getD j d' := by
  rw [List.getD_eq_getElem l d h, List.getD_eq_getElem l d' h]

lemma getD_replicate_underscore (n j : Nat) : (List.replicate n '_').getD j '_' = '_' := by
  rw [List.getD_eq_getElem?_getD, List.getElem?_replicate]
  split <;> rfl

/-- Claim C4: candidate sets are never grown.  (1) A pruning is a sub-list of
the pruned set, so the single-slot solver (which each turn filters the set it
stored the turn before) has monotonically shrinking candidates under EVERY
feedback, honest or not: conjunct (2) combines this with the stored set (the
words surviving the real compiled pattern).  (3)-(4): the multi-word solver
re-filters the full dictionary each turn, so shrinking needs honest feedback:
a fresh solver's all-unknown solution is consistent with any answer of the
right shape (3), honest rounds preserve consistency, and across one honest
round each slot's newly computed candidate set is a subset (hence no larger)
of the one computed the turn before (4). -/
theorem c4_candidate_sets_shrink :
    (∀ (guessed pattern : List Char) (words : List (List Char)),
        prune guessed pattern words ⊆ words ∧
        (prune guessed pattern words).length ≤ words.length) ∧
    (∀ (sv sv' : HangmanSolver) (freq freq' : List Char) (c : Char),
        sv.strategy = .regex → sv.guess_letter freq = .ok (c, sv', freq') →
        sv'.words = pruneRe sv.guessed_letters sv.solution sv.words ∧
        sv'.words ⊆ sv.words ∧ sv'.words.length ≤ sv.words.length) ∧
    (∀ (lens : List Nat) (dict answer : List (List Char)),
        answer.length = lens.length →
        (∀ k, k < lens.length → (answer.getD k []).length = lens.getD k 0) →
        consistentWith answer (MultiWordRegexHangmanSolver.init lens dict).solution) ∧
    (∀ (sv sv1 sv2 : MultiWordRegexHangmanSolver) (answer : List (List Char))
        (freq' : List Char) (c : Char),
        consistentWith answer sv.solution →
        sv.guess_letter letters_by_frequency = .ok (c, sv1, freq') →
        sv1.receive_feedback (honestIndices answer c) = .ok sv2 →
        consistentWith answer sv2.solution ∧
        ∀ k, k < sv.solution.length →
          prune sv2.guessed_letters (sv2.solution.getD k []) sv2.words ⊆
            sv1.word_candidates.getD k [] ∧
          (prune sv2.guessed_letters (sv2.solution.getD k []) sv2.words).length ≤
            (sv1.word_candidates.getD k []).length) := by
  refine ⟨?_, ?_, ?_, ?_⟩
  · intro guessed pattern words
    exact ⟨(List.filter_sublist _).subset, (List.filter_sublist _).length_le⟩
  · intro sv sv' freq freq' c hst h
    have hw := (HangmanSolver.guess_letter_regex_ok hst h).2.1
    rw [hw]
    exact ⟨rfl, (List.filter_sublist _).subset, (List.filter_sublist _).length_le⟩
  · intro lens dict answer hlen hslots
    have hsol : (MultiWordRegexHangmanSolver.init lens dict).solution =
        lens.map (fun n => List.replicate n '_') := rfl
    constructor
    · rw [hsol, List.length_map, hlen]
    · intro k hk
      have hk' : k < lens.length := by rw [hsol] at hk; simpa using hk
      have hsolk : (MultiWordRegexHangmanSolver.init lens dict).solution.getD k [] =
          List.replicate (lens.getD k 0) '_' := by
        rw [hsol, List.getD_eq_getElem?_getD, List.getElem?_map, List.getElem?_eq_getElem hk',
          List.getD_eq_getElem?_getD, List.getElem?_eq_getElem hk']
        rfl
      refine ⟨?_, ?_⟩
      · rw [hsolk, List.length_replicate]
        exact hslots k hk'
      · intro j hj hne
        rw [hsolk, getD_replicate_underscore] at hne
        exact absurd rfl hne
  · intro sv sv1 sv2 answer freq' c hcons hg hfb
    obtain ⟨hlg0, rfl, hcand, hsol1, hwords1, hg1, hl1, hnotin, hfreq⟩ :=
      MultiWordRegexHangmanSolver.guess_letter_ok hg
    have hcALL := letters_by_frequency_subset_ALL hfreq
    obtain ⟨hupd, hg2, hl2, hwords2, hwc2⟩ :=
      MultiWordRegexHangmanSolver.receive_feedback_ok hl1 hfb
    rw [hsol1] at hupd
    obtain ⟨hlen2, hchar⟩ := honest_round_solution hcons hupd
    have hanslen := hcons.1
    have hslotfacts := hcons.2
    constructor
    · constructor
      · rw [hlen2, hanslen]
      · intro k hk2
        have hk : k < sv.solution.length := by rw [← hlen2]; exact hk2
        obtain ⟨hsl, hcells⟩ := hchar k hk
        have hansk : (answer.getD k []).length = (sv.solution.getD k []).length :=
          (hslotfacts k hk).1
        refine ⟨by rw [hsl]; exact hansk, ?_⟩
        intro j hj2 hne
        have hj : j < (sv.solution.getD k []).length := by rw [← hsl]; exact hj2
        have hjans : j < (answer.getD k []).length := by rw [hansk]; exact hj
        rw [hcells j hj] at hne ⊢
        by_cases hcase : (answer.getD k []).getD j ' ' = c
        · rw [if_pos hcase]
          rw [← getD_default_eq hjans ' ' '_', hcase]
        · rw [if_neg hcase]
          rw [if_neg hcase] at hne
          exact (hslotfacts k hk).2 j hj hne
    · intro k hk
      have hposs : possible_letters sv.guessed_letters ≠ [] := by
        intro hcon
        have hcmem : c ∈ possible_letters sv.guessed_letters :=
          List.mem_filter.mpr ⟨hcALL, by simpa using hnotin⟩
        rw [hcon] at hcmem
        simp at hcmem
      have hnec : ∀ w : List Char, noEmptyClass sv.guessed_letters w = true := by
        intro w
        unfold noEmptyClass
        simp [hposs]
      have hcandk : sv1.word_candidates.getD k [] =
          prune sv.guessed_letters (sv.solution.getD k []) sv.words := by
        rw [hcand, List.getD_eq_getElem?_getD, List.getElem?_map,
          List.getElem?_eq_getElem hk, List.getD_eq_getElem?_getD,
          List.getElem?_eq_getElem hk]
        show pruneRe sv.guessed_letters sv.solution[k] sv.words =
          prune sv.guessed_letters sv.solution[k] sv.words
        exact pruneRe_eq_prune (hnec _) sv.words
      obtain ⟨hsl, hcells⟩ := hchar k hk
      have hmatch : ∀ w : List Char,
          patMatch (sv.guessed_letters.insert c) (sv2.solution.getD k []) w = true →
          patMatch sv.guessed_letters (sv.solution.getD k []) w = true := by
        intro w
        refine patMatch_mono hcALL hnotin hsl ?_
        intro j hj
        have hjans : j < (answer.getD k []).length := by
          rw [(hslotfacts k hk).1]
          exact hj
        rw [hcells j hj]
        by_cases hcase : (answer.getD k []).getD j ' ' = c
        · rw [if_pos hcase]
          constructor
          · intro hne
            have := (hslotfacts k hk).2 j hj hne
            rw [this, ← getD_default_eq hjans ' ' '_', hcase]
          · intro _
            exact Or.inr rfl
        · rw [if_neg hcase]
          exact ⟨fun _ => rfl, fun hu => Or.inl hu⟩
      rw [hcandk, hg2, hg1, hwords2, hwords1]
      constructor
      · intro w hw
        obtain ⟨hmem, hm⟩ := mem_prune.mp hw
        exact mem_prune.mpr ⟨hmem, hmatch w hm⟩
      · exact length_filter_mono sv.words (fun w _ hm => hmatch w hm)

/-- Witness for C4 at concrete states: a single-slot guess on `{TEST, BEST}`
keeps a candidate set included in (and no larger than) the dictionary, and a
full honest multi-word round on answer `TEST` leaves the slot's next computed
candidate set inside the one just stored. -/
theorem c4_witness :
    (({ solution := "____".toList, guessed_letters := [], last_guess := none,
        solved := false, strategy := .regex, oracle := [],
        words := ["TEST".toList, "BEST".toList] } : HangmanSolver).guess_letter
          letters_by_frequency =
        .ok ('E',
          { solution := "____".toList, guessed_letters := ['E'], last_guess := some 'E',
            solved := false, strategy := .regex, oracle := [],
            words := ["TEST".toList, "BEST".toList] },
          letters_by_frequency) ∧
      (["TEST".toList, "BEST".toList] : List (List Char)) ⊆
        ["TEST".toList, "BEST".toList] ∧
      (["TEST".toList, "BEST".toList] : List (List Char)).length ≤
        (["TEST".toList, "BEST".toList] : List (List Char)).length) ∧
    consistentWith ["TEST".toList]
      (MultiWordRegexHangmanSolver.init [4] ["TEST".toList, "BEST".toList]).solution := by
  constructor
  · have h := c4_candidate_sets_shrink.2.1
      { solution := "____".toList, guessed_letters := [], last_guess := none,
        solved := false, strategy := .regex, oracle := [],
        words := ["TEST".toList, "BEST".toList] }
      { solution := "____".toList, guessed_letters := ['E'], last_guess := some 'E',
        solved := false, strategy := .regex, oracle := [],
        words := ["TEST".toList, "BEST".toList] }
      letters_by_frequency letters_by_frequency 'E' rfl (by decide)
    exact ⟨by decide, h.2.1, h.2.2⟩
  · exact c4_candidate_sets_shrink.2.2.1 [4] ["TEST".toList, "BEST".toList]
      ["TEST".toList] (by decide) (by decide)

lemma getD_mod_mem {l : List Char} (h : l ≠ []) (k : Nat) (d : Char) :
    l.getD (k % l.length) d ∈ l := by
  have hlen : 0 < l.length := List.length_pos.mpr h
  have hm : k % l.length < l.length := Nat.mod_lt _ hlen
  rw [List.getD_eq_getElem _ _ hm]
  exact List.getElem_mem _

lemma HangmanSolver.guess_letter_fresh {sv sv' : HangmanSolver} {freq freq' : List Char}
    {c : Char} (hinv : FreqInv sv freq) (h : sv.guess_letter freq = .ok (c, sv', freq')) :
    c ∉ sv.guessed_letters ∧ sv'.guessed_letters = sv.guessed_letters.insert c ∧
    sv'.strategy = sv.strategy ∧ FreqInv sv' freq' := by
  unfold HangmanSolver.guess_letter at h
  cases hl : sv.last_guess <;> rw [hl] at h
  · cases hg : sv.guessImpl freq with
    | error e => simp [hg] at h
    | ok r =>
      obtain ⟨c0, sv0, freq0⟩ := r
      simp only [hg, Except.ok.injEq, Prod.mk.injEq] at h
      obtain ⟨rfl, rfl, rfl⟩ := h
      obtain ⟨hgl0, hlg0, hsol0, hsvd0, hst0⟩ := HangmanSolver.guessImpl_ok hg
      unfold HangmanSolver.guessImpl at hg
      cases hst : sv.strategy <;> rw [hst] at hg
      · -- frequency: freq = c0 :: freq0 popped
        cases hf : FrequencyHangmanSolver.guessFn freq with
        | error e => rw [hf] at hg; simp at hg
        | ok r0 =>
          obtain ⟨c1, rest⟩ := r0
          rw [hf] at hg
          simp only [Except.ok.injEq, Prod.mk.injEq] at hg
          obtain ⟨rfl, rfl, rfl⟩ := hg
          unfold FrequencyHangmanSolver.guessFn at hf
          cases freq with
          | nil => simp at hf
          | cons a rest' =>
            simp only [Except.ok.injEq, Prod.mk.injEq] at hf
            obtain ⟨rfl, rfl⟩ := hf
            obtain ⟨hnd, hdisj⟩ := hinv hst
            refine ⟨hdisj _ (List.mem_cons_self _ _), by rw [hgl0], by rw [hst0, hst], ?_⟩
            intro _
            rw [hgl0]
            refine ⟨(List.nodup_cons.mp hnd).2, ?_⟩
            intro l hl2
            rw [List.mem_insert_iff]
            push_neg
            exact ⟨fun hcon => (List.nodup_cons.mp hnd).1 (hcon ▸ hl2),
              hdisj _ (List.mem_cons_of_mem _ hl2)⟩
      · -- random: the choice is drawn from ALL_LETTERS minus guessed
        cases hf : RandomHangmanSolver.guessFn sv with
        | error e => rw [hf] at hg; simp at hg
        | ok r0 =>
          obtain ⟨c1, orc⟩ := r0
          rw [hf] at hg
          simp only [Except.ok.injEq, Prod.mk.injEq] at hg
          obtain ⟨rfl, rfl, rfl⟩ := hg
          unfold RandomHangmanSolver.guessFn at hf
          cases hp : possible_letters sv.guessed_letters with
          | nil => rw [hp] at hf; simp at hf
          | cons a rest =>
            rw [hp] at hf
            simp only [Except.ok.injEq, Prod.mk.injEq] at hf
            obtain ⟨rfl, rfl⟩ := hf
            have hsub : ∀ x ∈ a :: rest, x ∉ sv.guessed_letters := by
              intro x hx
              rw [← hp] at hx
              simpa using (List.mem_filter.mp hx).2
            have hmem : (a :: rest).getD (sv.oracle.headD 0 % (a :: rest).length) a ∈
                a :: rest := getD_mod_mem (by simp) _ _
            refine ⟨hsub _ hmem, by rw [hgl0], by rw [hst0, hst], ?_⟩
            intro hcon
            rw [hst0] at hcon
            rw [hst] at hcon
            cases hcon
      · -- regex: the selection subtracts the guessed letters
        cases hf : RegexHangmanSolver.guessFn freq sv with
        | error e => rw [hf] at hg; simp at hg
        | ok r0 =>
          obtain ⟨c1, w'⟩ := r0
          rw [hf] at hg
          simp only [Except.ok.injEq, Prod.mk.injEq] at hg
          obtain ⟨rfl, rfl, rfl⟩ := hg
          obtain ⟨-, hsel, -, -⟩ := regexGuessFn_ok_shape hf
          obtain ⟨-, hng, -, -⟩ := selectLetter_ok hsel
          refine ⟨hng, by rw [hgl0], by rw [hst0, hst], ?_⟩
          intro hcon
          rw [hst0] at hcon
          rw [hst] at hcon
          cases hcon
  · simp at h

lemma HangmanSolver.receive_feedback_frame {sv sv' : HangmanSolver}
    {matching_indices : List Nat} (h : sv.receive_feedback matching_indices = .ok sv') :
    sv'.guessed_letters = sv.guessed_letters ∧ sv'.strategy = sv.strategy := by
  unfold HangmanSolver.receive_feedback at h
  cases hl : sv.last_guess <;> rw [hl] at h
  · simp at h
  · simp only [Except.ok.injEq] at h
    subst h
    exact ⟨rfl, rfl⟩

lemma runOps_fresh :
    ∀ (ops : List Op) (sv : HangmanSolver) (freq : List Char),
      FreqInv sv freq →
      ∀ {svf : HangmanSolver} {freqf ls : List Char},
      runOps ops sv freq = some (svf, freqf, ls) →
      ls.Nodup ∧ (∀ l ∈ ls, l ∉ sv.guessed_letters) ∧
      (∀ l ∈ sv.guessed_letters, l ∈ svf.guessed_letters) ∧
      (∀ l ∈ ls, l ∈ svf.guessed_letters) := by
  intro ops
  induction ops with
  | nil =>
    intro sv freq hinv svf freqf ls h
    simp only [runOps, Option.some.injEq] at h
    obtain ⟨rfl, rfl, rfl⟩ := h
    exact ⟨List.nodup_nil, by simp, fun l hl => hl, by simp⟩
  | cons op ops ih =>
    intro sv freq hinv svf freqf ls h
    cases op with
    | guess =>
      unfold runOps at h
      cases hgl : sv.guess_letter freq with
      | error e => simp [hgl] at h
      | ok r =>
        obtain ⟨c, sv1, freq1⟩ := r
        simp only [hgl] at h
        cases hrun : runOps ops sv1 freq1 with
        | none => simp [hrun] at h
        | some r2 =>
          obtain ⟨svf2, freqf2, ls2⟩ := r2
          simp only [hrun, Option.some.injEq] at h
          obtain ⟨rfl, rfl, rfl⟩ := h
          obtain ⟨hfresh, hgl1, hst1, hinv1⟩ := HangmanSolver.guess_letter_fresh hinv hgl
          obtain ⟨hnd2, hnotin2, hmono2, hin2⟩ := ih sv1 freq1 hinv1 hrun
          have hcin1 : c ∈ sv1.guessed_letters := by
            rw [hgl1]
            exact List.mem_insert_self _ _
          refine ⟨?_, ?_, ?_, ?_⟩
          · rw [List.nodup_cons]
            exact ⟨fun hcon => hnotin2 c hcon hcin1, hnd2⟩
          · intro l hl
            rcases List.mem_cons.mp hl with rfl | hl2
            · exact hfresh
            · intro hcon
              exact hnotin2 l hl2 (by rw [hgl1]; exact List.mem_insert_of_mem hcon)
          · intro l hl
            exact hmono2 l (by rw [hgl1]; exact List.mem_insert_of_mem hl)
          · intro l hl
            rcases List.mem_cons.mp hl with rfl | hl2
            · exact hmono2 l hcin1
            · exact hin2 l hl2
    | feedback matching_indices =>
      unfold runOps at h
      cases hfb : sv.receive_feedback matching_indices with
      | error e => simp [hfb] at h
      | ok sv1 =>
        simp only [hfb] at h
        obtain ⟨hgl1, hst1⟩ := HangmanSolver.receive_feedback_frame hfb
        have hinv1 : FreqInv sv1 freq := by
          intro hst
          rw [hgl1]
          exact hinv (by rw [← hst1]; exact hst)
        obtain ⟨hnd2, hnotin2, hmono2, hin2⟩ := ih sv1 freq hinv1 h
        rw [hgl1] at hnotin2 hmono2
        exact ⟨hnd2, hnotin2, hmono2, hin2⟩

lemma MultiWordRegexHangmanSolver.receive_feedback_guessed
    {sv sv' : MultiWordRegexHangmanSolver} {m : List (List Nat)}
    (h : sv.receive_feedback m = .ok sv') :
    sv'.guessed_letters = sv.guessed_letters := by
  unfold MultiWordRegexHangmanSolver.receive_feedback at h
  cases hl : sv.last_guess with
  | none => simp [hl] at h
  | some g =>
    simp only [hl] at h
    cases hu : updateWords g sv.solution m with
    | none => simp [hu] at h
    | some sol =>
      simp only [hu, Except.ok.injEq] at h
      subst h
      rfl

lemma runMOps_fresh :
    ∀ (ops : List MOp) (sv : MultiWordRegexHangmanSolver) (freq : List Char),
      ∀ {svf : MultiWordRegexHangmanSolver} {freqf ls : List Char},
      runMOps ops sv freq = some (svf, freqf, ls) →
      ls.Nodup ∧ (∀ l ∈ ls, l ∉ sv.guessed_letters) ∧
      (∀ l ∈ sv.guessed_letters, l ∈ svf.guessed_letters) ∧
      (∀ l ∈ ls, l ∈ svf.guessed_letters) := by
  intro ops
  induction ops with
  | nil =>
    intro sv freq svf freqf ls h
    simp only [runMOps, Option.some.injEq] at h
    obtain ⟨rfl, rfl, rfl⟩ := h
    exact ⟨List.nodup_nil, by simp, fun l hl => hl, by simp⟩
  | cons op ops ih =>
    intro sv freq svf freqf ls h
    cases op with
    | guess =>
      unfold runMOps at h
      cases hgl : sv.guess_letter freq with
      | error e => simp [hgl] at h
      | ok r =>
        obtain ⟨c, sv1, freq1⟩ := r
        simp only [hgl] at h
        cases hrun : runMOps ops sv1 freq1 with
        | none => simp [hrun] at h
        | some r2 =>
          obtain ⟨svf2, freqf2, ls2⟩ := r2
          simp only [hrun, Option.some.injEq] at h
          obtain ⟨rfl, rfl, rfl⟩ := h
          obtain ⟨-, -, -, -, -, hgl1, -, hfresh, -⟩ :=
            MultiWordRegexHangmanSolver.guess_letter_ok hgl
          obtain ⟨hnd2, hnotin2, hmono2, hin2⟩ := ih sv1 freq1 hrun
          have hcin1 : c ∈ sv1.guessed_letters := by
            rw [hgl1]
            exact List.mem_insert_self _ _
          refine ⟨?_, ?_, ?_, ?_⟩
          · rw [List.nodup_cons]
            exact ⟨fun hcon => hnotin2 c hcon hcin1, hnd2⟩
          · intro l hl
            rcases List.mem_cons.mp hl with rfl | hl2
            · exact hfresh
            · intro hcon
              exact hnotin2 l hl2 (by rw [hgl1]; exact List.mem_insert_of_mem hcon)
          · intro l hl
            exact hmono2 l (by rw [hgl1]; exact List.mem_insert_of_mem hl)
          · intro l hl
            rcases List.mem_cons.mp hl with rfl | hl2
            · exact hmono2 l hcin1
            · exact hin2 l hl2
    | feedback m =>
      unfold runMOps at h
      cases hfb : sv.receive_feedback m with
      | error e => simp [hfb] at h
      | ok sv1 =>
        simp only [hfb] at h
        have hgl1 := MultiWordRegexHangmanSolver.receive_feedback_guessed hfb
        obtain ⟨hnd2, hnotin2, hmono2, hin2⟩ := ih sv1 freq h
        rw [hgl1] at hnotin2 hmono2
        exact ⟨hnd2, hnotin2, hmono2, hin2⟩

/-- Claim C7: for every strategy and every protocol-respecting operation
sequence on one freshly constructed solver instance, the letters returned by
the successful `guess_letter` calls are pairwise distinct.  For the three
single-slot strategies this holds for every duplicate-free state of the
shared frequency deque (in particular the pristine class deque); the
multi-word solver needs no side condition. -/
theorem c7_no_duplicate_guesses :
    (∀ (ops : List Op) (strategy : GuessingStrategy) (n : Nat) (oracle : List Nat)
        (dict : List (List Char)) (freq0 : List Char) (svf : HangmanSolver)
        (freqf ls : List Char),
        freq0.Nodup →
        runOps ops (HangmanSolver.init strategy n oracle dict) freq0 =
          some (svf, freqf, ls) →
        ls.Nodup) ∧
    (∀ (ops : List MOp) (lens : List Nat) (dict : List (List Char))
        (freq0 : List Char) (svf : MultiWordRegexHangmanSolver) (freqf ls : List Char),
        runMOps ops (MultiWordRegexHangmanSolver.init lens dict) freq0 =
          some (svf, freqf, ls) →
        ls.Nodup) := by
  constructor
  · intro ops strategy n oracle dict freq0 svf freqf ls hnd h
    have hinv : FreqInv (HangmanSolver.init strategy n oracle dict) freq0 :=
      fun _ => ⟨hnd, fun l _ hcon => by simp [HangmanSolver.init] at hcon⟩
    exact (runOps_fresh ops _ freq0 hinv h).1
  · intro ops lens dict freq0 svf freqf ls h
    exact (runMOps_fresh ops _ freq0 h).1

/-- Witness for C7: a concrete two-guess frequency run returns the distinct
letters `E, T`. -/
theorem c7_witness : (['E', 'T'] : List Char).Nodup :=
  c7_no_duplicate_guesses.1 [.guess, .feedback [], .guess] .frequency 3 [] []
    letters_by_frequency
    { solution := ['_', '_', '_'], guessed_letters := ['T', 'E'], last_guess := some 'T',
      solved := false, strategy := .frequency, oracle := [], words := [] }
    "AOINSRHDLUCMFYWGPBVKXQJZ".toList ['E', 'T'] (by decide) (by decide)

lemma toUpper_toUpper (c : Char) : c.toUpper.toUpper = c.toUpper := by
  have key : ∀ n : Nat, n < 55296 → (Char.ofNat n).toNat = n := by
    intro n h
    have hv : n.isValidChar := Or.inl h
    simp [Char.ofNat, Char.toNat, hv, Char.ofNatAux, UInt32.toNat, BitVec.toNat_ofNatLt]
  unfold Char.toUpper
  by_cases h : c.toNat ≥ 97 ∧ c.toNat ≤ 122
  · simp only [h, and_self, if_true]
    have h2 : (Char.ofNat (c.toNat - 32)).toNat = c.toNat - 32 := key _ (by omega)
    rw [if_neg]
    omega
  · simp [h]

lemma upperClosed_map_toUpper (w : List Char) : ∀ c ∈ w.map Char.toUpper, c.toUpper = c := by
  intro c hc
  obtain ⟨d, -, rfl⟩ := List.mem_map.mp hc
  exact toUpper_toUpper d

lemma lookup_updateChild (ch : List (Char × Node)) (k k' : Char) (n : Node) :
    (updateChild ch k n).lookup k' = if k' = k then some n else ch.lookup k' := by
  induction ch with
  | nil =>
    by_cases hk : k' = k
    · simp [updateChild, List.lookup, beq_iff_eq.mpr hk, hk]
    · simp [updateChild, List.lookup, beq_false_of_ne hk, hk]
  | cons p rest ih =>
    obtain ⟨k0, n0⟩ := p
    unfold updateChild
    by_cases h0 : k0 = k
    · subst h0
      by_cases hk : k' = k0
      · simp [List.lookup, beq_iff_eq.mpr hk, hk]
      · simp [List.lookup, beq_false_of_ne hk, hk]
    · rw [if_neg h0]
      by_cases hk : k' = k0
      · have hkk : ¬ k' = k := fun hcon => h0 (hk.symm.trans hcon)
        simp [List.lookup, beq_iff_eq.mpr hk, if_neg hkk]
      · have hb : (k' == k0) = false := beq_false_of_ne hk
        simp only [List.lookup, hb]
        exact ih

lemma Node.walk_mk_cons (t : Bool) (ch : List (Char × Node)) (c : Char) (cs : List Char) :
    Node.walk (.mk t ch) (c :: cs) =
      match ch.lookup c.toUpper with
      | none => none
      | some child => child.walk cs := rfl

lemma Node.memWord_mk_nil (t : Bool) (ch : List (Char × Node)) :
    Node.memWord (.mk t ch) [] = t := rfl

lemma Node.memWord_mk_cons (t : Bool) (ch : List (Char × Node)) (c : Char) (cs : List Char) :
    Node.memWord (.mk t ch) (c :: cs) =
      match ch.lookup c.toUpper with
      | none => false
      | some child => child.memWord cs := by
  unfold Node.memWord
  rw [Node.walk_mk_cons]
  cases ch.lookup c.toUpper <;> rfl

lemma Node.memWord_empty (w : List Char) : Node.memWord (.mk false []) w = false := by
  cases w with
  | nil => rfl
  | cons c cs => rw [Node.memWord_mk_cons]; rfl

lemma Node.walk_append (n : Node) (u v : List Char) :
    n.walk (u ++ v) = match n.walk u with
      | none => none
      | some m => m.walk v := by
  induction u generalizing n with
  | nil => rfl
  | cons c cs ih =>
    obtain ⟨t, ch⟩ := n
    rw [List.cons_append, Node.walk_mk_cons, Node.walk_mk_cons]
    cases ch.lookup c.toUpper with
    | none => rfl
    | some child => exact ih child

lemma Trie.containsB_eq_memWord (t : Trie) (x : List Char) :
    t.containsB x = t.root.memWord (x.map Char.toUpper) := rfl

lemma Node.memWord_insertPath :
    ∀ (l : List Char) (n : Node) (x : List Char),
      (∀ c ∈ l, c.toUpper = c) → (∀ c ∈ x, c.toUpper = c) →
      (insertPath n l).memWord x = (decide (x = l) || n.memWord x) := by
  intro l
  induction l with
  | nil =>
    intro n x hl hx
    obtain ⟨t, ch⟩ := n
    cases x with
    | nil => simp [insertPath, Node.memWord_mk_nil]
    | cons c cs =>
      show Node.memWord (.mk true ch) (c :: cs) = _
      rw [Node.memWord_mk_cons, Node.memWord_mk_cons]
      simp
  | cons a as ih =>
    intro n x hl hx
    obtain ⟨t, ch⟩ := n
    have ha : a.toUpper = a := hl a (List.mem_cons_self _ _)
    cases x with
    | nil =>
      have hstep : ∀ ch', Node.memWord (.mk t ch') [] = t := fun _ => rfl
      cases hlk : ch.lookup a.toUpper <;>
        simp [insertPath, Node.get_child, Node.children, Node.terminal, hlk,
          Node.memWord_mk_nil]
    | cons c cs =>
      have hc : c.toUpper = c := hx c (List.mem_cons_self _ _)
      have has : ∀ d ∈ as, d.toUpper = d := fun d hd => hl d (List.mem_cons_of_mem _ hd)
      have hcs : ∀ d ∈ cs, d.toUpper = d := fun d hd => hx d (List.mem_cons_of_mem _ hd)
      have hcons : insertPath (.mk t ch) (a :: as) =
          .mk t (updateChild ch a.toUpper
            (insertPath (match ch.lookup a.toUpper with
              | some child => child
              | none => .mk false []) as)) := rfl
      cases hlk : ch.lookup a.toUpper with
      | some child =>
        rw [hcons]
        simp only [hlk]
        rw [Node.memWord_mk_cons, lookup_updateChild, Node.memWord_mk_cons, hc, ha]
        by_cases hca : c = a
        · rw [if_pos hca]
          dsimp only
          rw [ih child cs has hcs]
          have hlk2 : List.lookup c ch = some child := by rw [hca, ← ha]; exact hlk
          rw [hlk2]
          by_cases hcsas : cs = as <;> simp [hca, hcsas]
        · rw [if_neg hca]
          have : decide (c :: cs = a :: as) = false := by
            simp [hca]
          rw [this, Bool.false_or]
      | none =>
        rw [hcons]
        simp only [hlk]
        rw [Node.memWord_mk_cons, lookup_updateChild, Node.memWord_mk_cons, hc, ha]
        by_cases hca : c = a
        · rw [if_pos hca]
          dsimp only
          rw [ih _ cs has hcs]
          have hlk2 : List.lookup c ch = none := by rw [hca, ← ha]; exact hlk
          rw [hlk2, Node.memWord_empty]
          by_cases hcsas : cs = as <;> simp [hca, hcsas]
        · rw [if_neg hca]
          have : decide (c :: cs = a :: as) = false := by
            simp [hca]
          rw [this, Bool.false_or]

lemma Trie.containsB_add (t : Trie) (i x : List Char) :
    (t.add i).containsB x =
      ((decide (i ≠ []) && decide (x.map Char.toUpper = i.map Char.toUpper)) ||
        t.containsB x) := by
  unfold Trie.add
  by_cases hi : i = []
  · simp [hi]
  · rw [if_neg hi, Trie.containsB_eq_memWord, Trie.containsB_eq_memWord]
    show Node.memWord (insertPath t.root (i.map Char.toUpper)) (x.map Char.toUpper) = _
    rw [Node.memWord_insertPath _ _ _ (upperClosed_map_toUpper i) (upperClosed_map_toUpper x)]
    simp [hi]

lemma insertedWords_cons (i : List Char) (rest : List (List Char)) :
    insertedWords (i :: rest) =
      if i = [] then insertedWords rest else i.map Char.toUpper :: insertedWords rest := by
  unfold insertedWords
  by_cases hi : i = []
  · rw [if_pos hi, List.filter_cons_of_neg (by simp [hi])]
  · rw [if_neg hi, List.filter_cons_of_pos (by simp [hi]), List.map_cons]

lemma Trie.containsB_foldl :
    ∀ (items : List (List Char)) (t : Trie) (x : List Char),
      (items.foldl Trie.add t).containsB x =
        (decide (x.map Char.toUpper ∈ insertedWords items) || t.containsB x) := by
  intro items
  induction items with
  | nil =>
    intro t x
    simp [insertedWords]
  | cons i rest ih =>
    intro t x
    rw [List.foldl_cons, ih, Trie.containsB_add, insertedWords_cons]
    by_cases hi : i = []
    · simp [hi]
    · rw [if_neg hi]
      by_cases h1 : x.map Char.toUpper = i.map Char.toUpper <;>
        by_cases h2 : x.map Char.toUpper ∈ insertedWords rest <;>
          simp [hi, h1, h2, List.mem_cons]

lemma Trie.containsB_new (items : List (List Char)) (x : List Char) :
    (Trie.new items).containsB x = true ↔
      x.map Char.toUpper ∈ insertedWords items := by
  unfold Trie.new
  rw [Trie.containsB_foldl, Trie.containsB_eq_memWord]
  show (decide _ || Node.memWord (.mk false []) _) = true ↔ _
  rw [Node.memWord_empty]
  simp

lemma mem_of_lookup {ch : List (Char × Node)} {k : Char} {n : Node}
    (h : ch.lookup k = some n) : (k, n) ∈ ch := by
  induction ch with
  | nil => simp [List.lookup] at h
  | cons p rest ih =>
    obtain ⟨k0, n0⟩ := p
    rw [List.lookup] at h
    cases hbeq : k == k0 with
    | true =>
      rw [hbeq] at h
      simp only [Option.some.injEq] at h
      subst h
      have : k = k0 := beq_iff_eq.mp hbeq
      subst this
      exact List.mem_cons_self _ _
    | false =>
      rw [hbeq] at h
      exact List.mem_cons_of_mem _ (ih h)

lemma lookup_of_mem_of_nodup {ch : List (Char × Node)} {k : Char} {n : Node}
    (hnd : (ch.map Prod.fst).Nodup) (h : (k, n) ∈ ch) : ch.lookup k = some n := by
  induction ch with
  | nil => simp at h
  | cons p rest ih =>
    obtain ⟨k0, n0⟩ := p
    rcases List.mem_cons.mp h with heq | hmem
    · obtain ⟨rfl, rfl⟩ := Prod.mk.injEq .. ▸ heq
      simp [List.lookup]
    · have hk : k ≠ k0 := by
        intro hcon
        subst hcon
        have : k ∈ rest.map Prod.fst := List.mem_map.mpr ⟨(k, n), hmem, rfl⟩
        exact (List.nodup_cons.mp (by simpa using hnd)).1 this
      rw [List.lookup, beq_false_of_ne hk]
      exact ih (List.nodup_cons.mp (by simpa using hnd)).2 hmem

lemma mem_updateChild {ch : List (Char × Node)} {k k' : Char} {n n' : Node}
    (h : (k', n') ∈ updateChild ch k n) : (k' = k ∧ n' = n) ∨ (k', n') ∈ ch := by
  induction ch with
  | nil =>
    simp only [updateChild] at h
    rcases List.mem_singleton.mp h with heq
    exact Or.inl (by simpa using heq)
  | cons p rest ih =>
    obtain ⟨k0, n0⟩ := p
    unfold updateChild at h
    by_cases h0 : k0 = k
    · rw [if_pos h0] at h
      rcases List.mem_cons.mp h with heq | hmem
      · exact Or.inl (by simpa using heq)
      · exact Or.inr (List.mem_cons_of_mem _ hmem)
    · rw [if_neg h0] at h
      rcases List.mem_cons.mp h with heq | hmem
      · exact Or.inr (List.mem_cons.mpr (Or.inl heq))
      · rcases ih hmem with hl | hr
        · exact Or.inl hl
        · exact Or.inr (List.mem_cons_of_mem _ hr)

lemma keys_updateChild (ch : List (Char × Node)) (k : Char) (n : Node) :
    (updateChild ch k n).map Prod.fst =
      if k ∈ ch.map Prod.fst then ch.map Prod.fst else ch.map Prod.fst ++ [k] := by
  induction ch with
  | nil => simp [updateChild]
  | cons p rest ih =>
    obtain ⟨k0, n0⟩ := p
    unfold updateChild
    by_cases h0 : k0 = k
    · subst h0
      simp
    · rw [if_neg h0, List.map_cons, List.map_cons, ih]
      by_cases hmem : k ∈ rest.map Prod.fst
      · rw [if_pos hmem, if_pos (by simp [hmem])]
      · have hne : ¬ k ∈ ((k0, n0) :: rest).map Prod.fst := by
          simp only [List.map_cons, List.mem_cons]
          push_neg
          exact ⟨fun hcon => h0 hcon.symm, hmem⟩
        rw [if_neg hmem]
        rw [if_neg (show ¬ k ∈ (k0, n0).1 :: rest.map Prod.fst by simpa using hne)]
        simp

lemma nodup_keys_updateChild {ch : List (Char × Node)} {k : Char} {n : Node}
    (hnd : (ch.map Prod.fst).Nodup) : ((updateChild ch k n).map Prod.fst).Nodup := by
  rw [keys_updateChild]
  by_cases hmem : k ∈ ch.map Prod.fst
  · rw [if_pos hmem]
    exact hnd
  · rw [if_neg hmem]
    rw [List.nodup_append]
    exact ⟨hnd, List.nodup_singleton _, by simpa using hmem⟩

lemma Node.WF_insertPath :
    ∀ (l : List Char) (n : Node), Node.WF n → Node.WF (insertPath n l) := by
  intro l
  induction l with
  | nil =>
    intro n hwf
    obtain ⟨t, ch⟩ := n
    cases hwf with
    | mk hnd hupper hwfch => exact Node.WF.mk hnd hupper hwfch
  | cons a as ih =>
    intro n hwf
    obtain ⟨t, ch⟩ := n
    cases hwf with
    | mk hnd hupper hwfch =>
      have hcons : insertPath (.mk t ch) (a :: as) =
          .mk t (updateChild ch a.toUpper
            (insertPath (match ch.lookup a.toUpper with
              | some child => child
              | none => .mk false []) as)) := rfl
      rw [hcons]
      have hchildWF : Node.WF (match ch.lookup a.toUpper with
          | some child => child
          | none => .mk false []) := by
        cases hlk : ch.lookup a.toUpper with
        | some child => exact hwfch _ _ (mem_of_lookup hlk)
        | none => exact Node.WF.mk List.nodup_nil (by simp) (by simp)
      refine Node.WF.mk (nodup_keys_updateChild hnd) ?_ ?_
      · intro k nn hmem
        rcases mem_updateChild hmem with ⟨rfl, -⟩ | hold
        · exact toUpper_toUpper a
        · exact hupper _ _ hold
      · intro k nn hmem
        rcases mem_updateChild hmem with ⟨-, rfl⟩ | hold
        · exact ih _ hchildWF
        · exact hwfch _ _ hold

lemma Node.WF_walk : ∀ (w : List Char) {n m : Node},
    Node.WF n → n.walk w = some m → Node.WF m := by
  intro w
  induction w with
  | nil =>
    intro n m hwf h
    obtain rfl : n = m := by
      cases n
      simpa [Node.walk] using h
    exact hwf
  | cons c cs ih =>
    intro n m hwf h
    obtain ⟨t, ch⟩ := n
    rw [Node.walk_mk_cons] at h
    cases hlk : ch.lookup c.toUpper with
    | none => rw [hlk] at h; simp at h
    | some child =>
      rw [hlk] at h
      cases hwf with
      | mk hnd hupper hwfch =>
        exact ih (hwfch _ _ (mem_of_lookup hlk)) h

lemma Trie.WF_foldl :
    ∀ (items : List (List Char)) (t : Trie),
      Node.WF t.root → Node.WF ((items.foldl Trie.add t).root) := by
  intro items
  induction items with
  | nil => exact fun t h => h
  | cons i rest ih =>
    intro t h
    rw [List.foldl_cons]
    apply ih
    unfold Trie.add
    by_cases hi : i = []
    · rw [if_pos hi]
      exact h
    · rw [if_neg hi]
      exact Node.WF_insertPath _ _ h

lemma Trie.WF_new (items : List (List Char)) : Node.WF (Trie.new items).root :=
  Trie.WF_foldl items ⟨.mk false []⟩ (Node.WF.mk List.nodup_nil (by simp) (by simp))

lemma Node.mem_collect : ∀ {n : Node}, Node.WF n →
    ∀ (pre x : List Char),
      x ∈ n.collect pre ↔
        ∃ s, (∀ c ∈ s, c.toUpper = c) ∧ x = pre ++ s ∧ n.memWord s = true := by
  intro n hwf
  induction hwf with
  | @mk t ch hnd hupper hwfch ih =>
    intro pre x
    rw [Node.collect]
    constructor
    · intro hx
      rcases List.mem_append.mp hx with hleft | hright
      · cases t with
        | false => simp at hleft
        | true =>
          simp only [if_true] at hleft
          rw [List.mem_singleton.mp hleft]
          exact ⟨[], by simp, by simp, rfl⟩
      · have aux : ∀ ch0 : List (Char × Node),
            (∀ p, p ∈ ch0 → p ∈ ch) →
            ∀ y, y ∈ Node.collect.collectChildren ch0 pre →
            ∃ s, (∀ c ∈ s, c.toUpper = c) ∧ y = pre ++ s ∧
              Node.memWord (.mk t ch) s = true := by
          intro ch0
          induction ch0 with
          | nil =>
            intro _ y hy
            rw [Node.collect.collectChildren] at hy
            simp at hy
          | cons p rest ihc =>
            obtain ⟨c, child⟩ := p
            intro hsub y hy
            rw [Node.collect.collectChildren] at hy
            rcases List.mem_append.mp hy with hl | hr
            · have hmemc : (c, child) ∈ ch := hsub _ (List.mem_cons_self _ _)
              obtain ⟨s, hsup, hysplit, hmw⟩ := (ih c child hmemc (pre ++ [c]) y).mp hl
              refine ⟨c :: s, ?_, ?_, ?_⟩
              · intro d hd
                rcases List.mem_cons.mp hd with rfl | hd2
                · exact hupper _ _ hmemc
                · exact hsup d hd2
              · rw [hysplit]
                simp
              · rw [Node.memWord_mk_cons, hupper _ _ hmemc,
                  lookup_of_mem_of_nodup hnd hmemc]
                exact hmw
            · exact ihc (fun q hq => hsub _ (List.mem_cons_of_mem _ hq)) y hr
        exact aux ch (fun _ hp => hp) x hright
    · rintro ⟨s, hsup, rfl, hmw⟩
      cases s with
      | nil =>
        rw [Node.memWord_mk_nil] at hmw
        refine List.mem_append.mpr (Or.inl ?_)
        rw [hmw]
        simp
      | cons c cs =>
        rw [Node.memWord_mk_cons] at hmw
        have hu : c.toUpper = c := hsup c (List.mem_cons_self _ _)
        rw [hu] at hmw
        cases hlk : ch.lookup c with
        | none => rw [hlk] at hmw; simp at hmw
        | some child =>
          rw [hlk] at hmw
          have hmemc : (c, child) ∈ ch := mem_of_lookup hlk
          refine List.mem_append.mpr (Or.inr ?_)
          have hy : (pre ++ [c]) ++ cs ∈ Node.collect child (pre ++ [c]) :=
            (ih c child hmemc (pre ++ [c]) _).mpr
              ⟨cs, fun d hd => hsup d (List.mem_cons_of_mem _ hd), rfl, hmw⟩
          have hsubset : ∀ ch0 : List (Char × Node), (c, child) ∈ ch0 →
              ∀ y, y ∈ Node.collect child (pre ++ [c]) →
                y ∈ Node.collect.collectChildren ch0 pre := by
            intro ch0
            induction ch0 with
            | nil => simp
            | cons q rest ihc =>
              intro hmem0 y hy0
              obtain ⟨c0, n0⟩ := q
              rw [Node.collect.collectChildren]
              rcases List.mem_cons.mp hmem0 with heq | hmemr
              · obtain ⟨rfl, rfl⟩ : c0 = c ∧ n0 = child := by
                  have := heq.symm
                  simpa [Prod.ext_iff] using this
                exact List.mem_append.mpr (Or.inl hy0)
              · exact List.mem_append.mpr (Or.inr (ihc hmemr y hy0))
          have hshape : pre ++ c :: cs = (pre ++ [c]) ++ cs := by simp
          rw [hshape]
          exact hsubset ch hmemc _ hy

lemma upperClosed_eq_map {x : List Char} (h : ∀ c ∈ x, c.toUpper = c) :
    x.map Char.toUpper = x := by
  induction x with
  | nil => rfl
  | cons c cs ih =>
    rw [List.map_cons, h c (List.mem_cons_self _ _),
      ih (fun d hd => h d (List.mem_cons_of_mem _ hd))]

lemma insertedWords_upperClosed {items : List (List Char)} {x : List Char}
    (h : x ∈ insertedWords items) : ∀ c ∈ x, c.toUpper = c := by
  obtain ⟨i, -, rfl⟩ := List.mem_map.mp h
  exact upperClosed_map_toUpper i

lemma Node.memWord_append (n : Node) (u v : List Char) :
    n.memWord (u ++ v) = match n.walk u with
      | none => false
      | some m => m.memWord v := by
  unfold Node.memWord
  rw [Node.walk_append]
  cases n.walk u <;> rfl

/-- Claim C9: for every trie built by insertions, `contains` holds exactly
for the (uppercased, nonempty) inserted words — in particular a proper
prefix of an inserted word that was never itself inserted is not contained —
and `suggest(prefix)` returns, as a set, exactly the inserted words having
the (uppercased) prefix as a prefix, the empty collection when no node is
reached by the prefix.  (`contains` is by definition "the walked-to node
exists and is terminal"; the content is its characterization through the
insertion history.) -/
theorem c9_trie_contains_suggest :
    (∀ (items : List (List Char)) (x : List Char),
        (Trie.new items).containsB x = true ↔
          x.map Char.toUpper ∈ insertedWords items) ∧
    (∀ (items : List (List Char)) (p : List Char),
        (Trie.new items).get_node p = none → (Trie.new items).suggest p = []) ∧
    (∀ (items : List (List Char)) (p x : List Char),
        x ∈ (Trie.new items).suggest p ↔
          (x ∈ insertedWords items ∧ ∃ s, x = p.map Char.toUpper ++ s)) := by
  refine ⟨Trie.containsB_new, ?_, ?_⟩
  · intro items p h
    unfold Trie.suggest
    rw [h]
  · intro items p x
    have hwfroot := Trie.WF_new items
    have hroot : ∀ y : List Char, (∀ c ∈ y, c.toUpper = c) →
        ((Trie.new items).root.memWord y = true ↔ y ∈ insertedWords items) := by
      intro y hy
      have h := Trie.containsB_new items y
      rw [Trie.containsB_eq_memWord, upperClosed_eq_map hy] at h
      exact h
    unfold Trie.suggest
    cases hgn : (Trie.new items).get_node p with
    | none =>
      have hgn' : (Trie.new items).root.walk (p.map Char.toUpper) = none := hgn
      constructor
      · intro hx
        simp at hx
      · rintro ⟨hins, s, rfl⟩
        have hmwroot := (hroot _ (insertedWords_upperClosed hins)).mpr hins
        rw [Node.memWord_append, hgn'] at hmwroot
        cases hmwroot
    | some n =>
      have hgn' : (Trie.new items).root.walk (p.map Char.toUpper) = some n := hgn
      have hwfn : Node.WF n := Node.WF_walk _ hwfroot hgn'
      rw [Node.mem_collect hwfn (p.map Char.toUpper) x]
      constructor
      · rintro ⟨s, hsup, rfl, hmw⟩
        have hupper_x : ∀ c ∈ p.map Char.toUpper ++ s, c.toUpper = c := by
          intro c hc
          rcases List.mem_append.mp hc with hl | hr
          · exact upperClosed_map_toUpper p c hl
          · exact hsup c hr
        have hmwroot : (Trie.new items).root.memWord (p.map Char.toUpper ++ s) = true := by
          rw [Node.memWord_append, hgn']
          exact hmw
        exact ⟨(hroot _ hupper_x).mp hmwroot, s, rfl⟩
      · rintro ⟨hins, s, rfl⟩
        have hupper_x := insertedWords_upperClosed hins
        have hmwroot := (hroot _ hupper_x).mpr hins
        rw [Node.memWord_append, hgn'] at hmwroot
        exact ⟨s, fun c hc => hupper_x c (List.mem_append.mpr (Or.inr hc)), rfl, hmwroot⟩

/-- Witness for C9 at the spec's concrete scenario `{CAT, CAR, CARD}`:
`suggest("DOG")` is empty (its node is absent), and the `contains("CAR")`
characterization instantiates. -/
theorem c9_witness :
    (Trie.new ["CAT".toList, "CAR".toList, "CARD".toList]).suggest "DOG".toList = [] ∧
    ((Trie.new ["CAT".toList, "CAR".toList, "CARD".toList]).containsB "CAR".toList = true ↔
      "CAR".toList.map Char.toUpper ∈
        insertedWords ["CAT".toList, "CAR".toList, "CARD".toList]) :=
  ⟨c9_trie_contains_suggest.2.1 ["CAT".toList, "CAR".toList, "CARD".toList]
      "DOG".toList rfl,
   c9_trie_contains_suggest.1 ["CAT".toList, "CAR".toList, "CARD".toList] "CAR".toList⟩
